import Mathlib

/-!
Verification development for the MikroTik geoip address-list service
(`src/geoip/app_geoip.py`).  The data model and operations below are a
shallow embedding of the Python source: Python `str` values are modelled
as lists of Unicode code points (`PyStr`), `ipaddress.IPv4Network`
values as `Net` (network address + prefix length, both natural numbers),
Python dicts as association lists (insertion ordered, first match wins
on lookup, assignment overwrites), and the generated `.rsc` script as a
list of structured `Line`s (header line, list-swap directive, `add`
line, `:log error` directive).
-/

/-- Model of a Python `str`: the sequence of its Unicode code points. -/
abbrev PyStr := List Nat

/-- ASCII whitespace, as stripped by Python's `str.strip()` (the model
restricts to the ASCII whitespace characters). -/
def pyIsSpace (c : Nat) : Bool :=
  c == 32 || c == 9 || c == 10 || c == 13 || c == 11 || c == 12

/-- Python `str.strip()`: drop leading and trailing whitespace. -/
def pystrip (s : PyStr) : PyStr :=
  ((s.dropWhile pyIsSpace).reverse.dropWhile pyIsSpace).reverse

/-- Python `str.lower()` on one code point (ASCII range, as relevant to
the two-letter country codes and list names used by the service). -/
def pylowerChar (c : Nat) : Nat :=
  if 65 ≤ c ∧ c ≤ 90 then c + 32 else c

/-- Python `str.upper()` on one code point (ASCII range). -/
def pyupperChar (c : Nat) : Nat :=
  if 97 ≤ c ∧ c ≤ 122 then c - 32 else c

/-- Python `str.lower()`. -/
def pylowerStr (s : PyStr) : PyStr := s.map pylowerChar

/-- Python `str.upper()`. -/
def pyupperStr (s : PyStr) : PyStr := s.map pyupperChar

/-- Membership of a code point in the regex character class
`[A-Za-z0-9_\-]` used by `normalize_list_name` / `normalize_prefix`. -/
def isClassChar (c : Nat) : Bool :=
  (65 ≤ c && c ≤ 90) || (97 ≤ c && c ≤ 122) || (48 ≤ c && c ≤ 57) ||
    c == 95 || c == 45

/-- `re.sub(r"[^A-Za-z0-9_\-]", "_", s)`: each character outside the
class is replaced by an underscore (code point 95). -/
def pysubClass (s : PyStr) : PyStr :=
  s.map (fun c => if isClassChar c then c else 95)

/-- Python `str.rstrip("-")`: drop trailing hyphens (code point 45). -/
def pyrstripDash (s : PyStr) : PyStr :=
  (s.reverse.dropWhile (fun c => c == 45)).reverse

/-- Lexicographic strict order on code-point sequences, matching
Python's `<` on `str`. -/
def strLtB : PyStr → PyStr → Bool
  | [], [] => false
  | [], _ :: _ => true
  | _ :: _, [] => false
  | a :: as, b :: bs =>
    if a < b then true else if b < a then false else strLtB as bs

/-- Non-strict lexicographic order on strings. -/
def strLe (a b : PyStr) : Prop := strLtB b a = false

instance : DecidableRel strLe := fun a b =>
  inferInstanceAs (Decidable (strLtB b a = false))

/-- Python `sorted` on a collection of strings (used for
`sorted(selected_countries)` and `sorted(selected_zones)`). -/
def sortedStrs (l : List PyStr) : List PyStr := List.insertionSort strLe l

/-- First-match association-list lookup: model of Python dict access
(dict keys are unique, so first match is the match). -/
def alookup {α : Type} : List (PyStr × α) → PyStr → Option α
  | [], _ => none
  | (k, v) :: rest, key => if k = key then some v else alookup rest key

/-- `d.get(k, dflt)`. -/
def lookupD {α : Type} (m : List (PyStr × α)) (k : PyStr) (dflt : α) : α :=
  (alookup m k).getD dflt

/-- `k in d`. -/
def hasKey {α : Type} (m : List (PyStr × α)) (k : PyStr) : Bool :=
  (alookup m k).isSome

/-- Dict assignment `d[k] = v`: overwrite in place if the key is
present, otherwise append. -/
def assocUpd {α : Type} (m : List (PyStr × α)) (k : PyStr) (v : α) :
    List (PyStr × α) :=
  if hasKey m k then m.map (fun p => if p.1 = k then (k, v) else p)
  else m ++ [(k, v)]

/-!  ## IPv4 networks and the aggregation pipeline  -/

/-- Model of `ipaddress.IPv4Network`: the integer value of
`network_address` and the prefix length.  Networks built by
`ip_network(..., strict=False)` always have `addr < 2^32`,
`plen ≤ 32` and host bits zero; the operations below only use the
covered address interval, so no invariant needs to be carried. -/
structure Net where
  addr : Nat
  plen : Nat
deriving DecidableEq, Repr

/-- Number of addresses covered by a network (`2^(32 - plen)`). -/
def Net.size (n : Net) : Nat := 2 ^ (32 - n.plen)

/-- Last covered address (`broadcast_address`). -/
def Net.hi (n : Net) : Nat := n.addr + n.size - 1

/-- The network covers the address `x`. -/
def memNet (x : Nat) (n : Net) : Prop := n.addr ≤ x ∧ x ≤ n.hi

instance (x : Nat) (n : Net) : Decidable (memNet x n) :=
  inferInstanceAs (Decidable (_ ∧ _))

/-- Some network in the list covers `x`. -/
def memNets (x : Nat) (l : List Net) : Prop := ∃ n ∈ l, memNet x n

instance (x : Nat) (l : List Net) : Decidable (memNets x l) :=
  List.decidableBEx _ l

/-- Sort key used by `maybe_collapse_networks`:
`int(n.network_address)`. -/
def netLE (a b : Net) : Prop := a.addr ≤ b.addr

instance : DecidableRel netLE := fun a b =>
  inferInstanceAs (Decidable (a.addr ≤ b.addr))

instance : IsTotal Net netLE := ⟨fun a b => Nat.le_total a.addr b.addr⟩

instance : IsTrans Net netLE := ⟨fun _ _ _ h h' => Nat.le_trans h h'⟩

/-- `sorted(nets, key=lambda n: int(n.network_address))`: Python's sort
is stable, as is insertion sort with a non-strict key comparison. -/
def sortNets (l : List Net) : List Net := List.insertionSort netLE l

/-- A closed interval of addresses `[lo, hi]`. -/
structure Ival where
  lo : Nat
  hi : Nat
deriving DecidableEq, Repr

/-- The address interval covered by a network. -/
def Net.toIval (n : Net) : Ival := ⟨n.addr, n.addr + n.size - 1⟩

/-- Some interval in the list contains `x`. -/
def covI (x : Nat) (l : List Ival) : Prop := ∃ i ∈ l, i.lo ≤ x ∧ x ≤ i.hi

/-- Order on intervals by lower end. -/
def ivalLE (a b : Ival) : Prop := a.lo ≤ b.lo

instance : DecidableRel ivalLE := fun a b =>
  inferInstanceAs (Decidable (a.lo ≤ b.lo))

instance : IsTotal Ival ivalLE := ⟨fun a b => Nat.le_total a.lo b.lo⟩

instance : IsTrans Ival ivalLE := ⟨fun _ _ _ h h' => Nat.le_trans h h'⟩

/-- Sort intervals ascending by lower end. -/
def sortIvals (l : List Ival) : List Ival := List.insertionSort ivalLE l

/-- Merge a list of intervals sorted by lower end into the maximal
runs of contiguous/overlapping coverage. -/
def mergeRuns : List Ival → List Ival
  | [] => []
  | [a] => [a]
  | a :: b :: rest =>
    if b.lo ≤ a.hi + 1 then mergeRuns (⟨a.lo, max a.hi b.hi⟩ :: rest)
    else a :: mergeRuns (b :: rest)
termination_by l => l.length

/-- Trailing zero bits of `x`, computed with explicit fuel. -/
def ctzFuel : Nat → Nat → Nat
  | 0, _ => 0
  | fuel + 1, x => if x % 2 = 1 then 0 else ctzFuel fuel (x / 2) + 1

/-- `_count_righthand_zero_bits(x, 32)` from Python `ipaddress`:
trailing zero bits of `x`, capped at 32 (and 32 for `x = 0`). -/
def ctz32 (x : Nat) : Nat := if x = 0 then 32 else ctzFuel 32 x

/-- Size (in bits) of the largest aligned CIDR block starting at
`first` that fits inside `[first, last]`:
`min(_count_righthand_zero_bits(first, 32), (last - first + 1).bit_length() - 1)`
(`bit_length(n) - 1` is the floor base-2 logarithm for `n ≥ 1`). -/
def nbitsFor (first last : Nat) : Nat :=
  min (ctz32 first) (Nat.log 2 (last - first + 1))

/-- `summarize_address_range(first, last)` from Python `ipaddress`:
greedily emit the largest aligned CIDR block starting at `first` that
fits inside `[first, last]`, then continue after it. -/
def summarize (first last : Nat) : List Net :=
  if h : first ≤ last then
    Net.mk first (32 - nbitsFor first last) ::
      summarize (first + 2 ^ nbitsFor first last) last
  else []
termination_by last + 1 - first
decreasing_by
  have h1 : 1 ≤ 2 ^ nbitsFor first last := Nat.one_le_two_pow
  omega

/-- Model of `ipaddress.collapse_addresses` on a list of IPv4 networks:
the minimal set of CIDR prefixes covering the same union of addresses,
in ascending address order (Python computes the same result by
repeatedly merging sibling prefixes and dropping contained ones). -/
def collapseList (nets : List Net) : List Net :=
  (mergeRuns (sortIvals (nets.map Net.toIval))).flatMap
    (fun i => summarize i.lo i.hi)

/-- `maybe_collapse_networks(nets, aggregate)` from the source:
without `aggregate` (or on an empty input) just sort by numeric network
address; with `aggregate` collapse first, then sort. -/
def maybe_collapse_networks (nets : List Net) (aggregate : Bool) :
    List Net :=
  if aggregate = false ∨ nets = [] then sortNets nets
  else sortNets (collapseList nets)

/-!  ## Naming helpers and string constants  -/

/-- "geoip" (the fixed fallback list name). -/
def geoipName : PyStr := [103, 101, 111, 105, 112]

/-- "geoip-" (`GEOIP_COUNTRY_PREFIX` default). -/
def geoipDashName : PyStr := [103, 101, 111, 105, 112, 45]

/-- "-old" (`GEOIP_OLD_SUFFIX` default). -/
def oldSuffix : PyStr := [45, 111, 108, 100]

/-- "custom" (suffix of the extra list in multi-list mode). -/
def customName : PyStr := [99, 117, 115, 116, 111, 109]

/-- "Custom" (comment tag of inline networks in single-list mode). -/
def customTag : PyStr := [67, 117, 115, 116, 111, 109]

/-- "GEOIP custom link is wrong, please check online !" (message of the
`:log error` directive returned by `/custom.rsc` on failure). -/
def customErrMsg : PyStr :=
  [71, 69, 79, 73, 80, 32, 99, 117, 115, 116, 111, 109, 32, 108, 105,
   110, 107, 32, 105, 115, 32, 119, 114, 111, 110, 103, 44, 32, 112,
   108, 101, 97, 115, 101, 32, 99, 104, 101, 99, 107, 32, 111, 110,
   108, 105, 110, 101, 32, 33]

/-- "GEOIP geoip.rsc link is wrong, please check online !" (message of
the `:log error` directive returned by `/geoip.rsc` on failure). -/
def geoipErrMsg : PyStr :=
  [71, 69, 79, 73, 80, 32, 103, 101, 111, 105, 112, 46, 114, 115, 99,
   32, 108, 105, 110, 107, 32, 105, 115, 32, 119, 114, 111, 110, 103,
   44, 32, 112, 108, 101, 97, 115, 101, 32, 99, 104, 101, 99, 107, 32,
   111, 110, 108, 105, 110, 101, 32, 33]

/-- `normalize_list_name(raw)` from the source: default "geoip",
strip, replace characters outside `[A-Za-z0-9_\-]` by `_`, truncate to
63 characters. -/
def normalize_list_name (raw : Option PyStr) : PyStr :=
  match raw with
  | none => geoipName
  | some r =>
    if r = [] then geoipName
    else
      let r' := pystrip r
      if r' = [] then geoipName
      else
        let cleaned := pysubClass r'
        if cleaned = [] then geoipName else cleaned.take 63

/-- The `base` local of `normalize_prefix`: the stripped caller value,
or the default prefix when the caller value is absent or blank. -/
def pfxBase (raw : Option PyStr) (defaultPfx : PyStr) : PyStr :=
  match raw with
  | none => defaultPfx
  | some r =>
    if r = [] then defaultPfx
    else if pystrip r = [] then defaultPfx else pystrip r

/-- The `cleaned` step of `normalize_prefix`:
`re.sub(r"[^A-Za-z0-9_\-]", "_", s).rstrip("-")`. -/
def pfxClean (s : PyStr) : PyStr := pyrstripDash (pysubClass s)

/-- `normalize_prefix(raw, default_prefix)` from the source: fall back
to the default prefix, sanitize, strip trailing hyphens, fall back to
the sanitized default then to "geoip" when empty, truncate to 40. -/
def normalize_pfx (raw : Option PyStr) (defaultPfx : PyStr) : PyStr :=
  let c1 := pfxClean (pfxBase raw defaultPfx)
  let c2 := if c1 = [] then pfxClean defaultPfx else c1
  let c3 := if c2 = [] then geoipName else c2
  c3.take 40

/-- `list_old_name(list_name)` from the source: the temporary name used
during the old-list swap (`name + GEOIP_OLD_SUFFIX`). -/
def list_old_name (n : PyStr) : PyStr :=
  if n = [] then geoipName ++ oldSuffix else n ++ oldSuffix

/-!  ## Script lines and the two emitters  -/

/-- One line of a generated `.rsc` script:
`header` is `/ip firewall address-list`;
`swap n o` is the directive
`:do ... set [find list=n] list=o timeout=00:05:00 ... on-error=...`;
`add ln a cm` is `add list=ln address=a dynamic=yes [comment="cm"]`;
`errlog m` is `:log error "m"`. -/
inductive Line where
  | header
  | swap (listName oldName : PyStr)
  | add (listName : PyStr) (address : Net) (comment : Option PyStr)
  | errlog (msg : PyStr)
deriving DecidableEq, Repr

/-- The per-script seen-set loop: emit each network of `nets` that is
not yet in `seen`, returning the emitted networks in order together
with the final seen-set (modelled as a list, membership only). -/
def emitNets : List Net → List Net → List Net × List Net
  | [], seen => ([], seen)
  | n :: rest, seen =>
    if n ∈ seen then emitNets rest seen
    else
      let r := emitNets rest (n :: seen)
      (n :: r.1, r.2)

/-- Python `set(...)` contents of a list of networks, as the
first-occurrence deduplication (iteration order of a CPython set is
unspecified; only the contents matter to the properties proved). -/
def pydedupN (nets : List Net) : List Net := (emitNets nets []).1

/-- One step of the country-selection loop shared by both endpoints:
keep a stripped, lower-cased token when it is non-empty, is a catalog
key and is not yet selected. -/
def addCountry (catalog : List (PyStr × List Net)) (acc : List PyStr)
    (craw : PyStr) : List PyStr :=
  let c := pylowerStr (pystrip craw)
  if c ≠ [] ∧ hasKey catalog c = true ∧ c ∉ acc then acc ++ [c] else acc

/-- One step of the zone-selection loop of `/custom.rsc`. -/
def addZone (zoneDefs : List (PyStr × List PyStr)) (acc : List PyStr)
    (zraw : PyStr) : List PyStr :=
  let z := pyupperStr (pystrip zraw)
  if z ≠ [] ∧ hasKey zoneDefs z = true ∧ z ∉ acc then acc ++ [z] else acc

/-- `nets_zone` of `/custom.rsc`: the set-union of the catalog entries
of the zone's member countries that are present in the catalog. -/
def zoneUnionNets (catalog : List (PyStr × List Net))
    (members : List PyStr) : List Net :=
  pydedupN (members.foldl
    (fun acc c =>
      if hasKey catalog c then acc ++ lookupD catalog c [] else acc) [])

/-- Country loop of `/custom.rsc` (countries in ascending code order,
comment is the upper-cased country code, seen-set threaded through). -/
def customCountryAdds (catalog : List (PyStr × List Net)) (agg : Bool)
    (listName : PyStr) : List PyStr → List Net → List Line × List Net
  | [], seen => ([], seen)
  | c :: rest, seen =>
    let nets := lookupD catalog c []
    if nets = [] then customCountryAdds catalog agg listName rest seen
    else
      let e := emitNets (maybe_collapse_networks nets agg) seen
      let t := customCountryAdds catalog agg listName rest e.2
      (e.1.map (fun n => Line.add listName n (some (pyupperStr c))) ++
        t.1, t.2)

/-- Zone loop of `/custom.rsc` (zones in ascending code order, comment
is the zone code as stored, seen-set threaded through). -/
def customZoneAdds (catalog : List (PyStr × List Net))
    (zoneDefs : List (PyStr × List PyStr)) (agg : Bool)
    (listName : PyStr) : List PyStr → List Net → List Line × List Net
  | [], seen => ([], seen)
  | z :: rest, seen =>
    let netsZone := zoneUnionNets catalog (lookupD zoneDefs z [])
    if netsZone = [] then customZoneAdds catalog zoneDefs agg listName rest seen
    else
      let e := emitNets (maybe_collapse_networks netsZone agg) seen
      let t := customZoneAdds catalog zoneDefs agg listName rest e.2
      (e.1.map (fun n => Line.add listName n (some z)) ++ t.1, t.2)

/-- Country phase of `/custom.rsc` starting from the empty seen-set. -/
def cPhase1 (catalog : List (PyStr × List Net)) (agg : Bool)
    (listName : PyStr) (selC : List PyStr) : List Line × List Net :=
  customCountryAdds catalog agg listName (sortedStrs selC) []

/-- Zone phase of `/custom.rsc`, continuing the country phase's
seen-set. -/
def cPhase2 (catalog : List (PyStr × List Net))
    (zoneDefs : List (PyStr × List PyStr)) (agg : Bool)
    (listName : PyStr) (selC selZ : List PyStr) : List Line × List Net :=
  customZoneAdds catalog zoneDefs agg listName (sortedStrs selZ)
    (cPhase1 catalog agg listName selC).2

/-- Custom-network phase of `/custom.rsc`, continuing the zone phase's
seen-set; returns the emitted networks. -/
def cPhase3 (catalog : List (PyStr × List Net))
    (zoneDefs : List (PyStr × List PyStr)) (agg : Bool)
    (listName : PyStr) (selC selZ : List PyStr)
    (customNets : List Net) : List Net × List Net :=
  if customNets = [] then
    ([], (cPhase2 catalog zoneDefs agg listName selC selZ).2)
  else
    emitNets (maybe_collapse_networks customNets agg)
      (cPhase2 catalog zoneDefs agg listName selC selZ).2

/-- All add lines of `/custom.rsc` (the `lines` list minus the header
and swap directive), in emission order. -/
def customAdds (catalog : List (PyStr × List Net))
    (zoneDefs : List (PyStr × List PyStr)) (agg : Bool)
    (listName : PyStr) (selC selZ : List PyStr)
    (customNets : List Net) : List Line :=
  (cPhase1 catalog agg listName selC).1 ++
    (cPhase2 catalog zoneDefs agg listName selC selZ).1 ++
    (cPhase3 catalog zoneDefs agg listName selC selZ customNets).1.map
      (fun n => Line.add listName n (some customTag))

/-- `/custom.rsc` (`custom_rsc` in the source): all selected
countries/zones/custom networks merged into one address-list, with a
single error directive on empty selection (`raise` before building) or
empty resolution (`any_entries` false).  The textual `custom` parameter
is represented by its parsed network list (`parse_custom_cidrs`
output). -/
def custom_rsc (catalog : List (PyStr × List Net))
    (zoneDefs : List (PyStr × List PyStr)) (cc zone : List PyStr)
    (listParam : Option PyStr) (aggregateParam : Int)
    (customNets : List Net) : List Line :=
  if cc.foldl (addCountry catalog) [] = [] ∧
      zone.foldl (addZone zoneDefs) [] = [] ∧ customNets = [] then
    [Line.errlog customErrMsg]
  else if customAdds catalog zoneDefs (decide (aggregateParam ≠ 0))
      (normalize_list_name listParam) (cc.foldl (addCountry catalog) [])
      (zone.foldl (addZone zoneDefs) []) customNets = [] then
    [Line.errlog customErrMsg]
  else
    Line.header ::
      Line.swap (normalize_list_name listParam)
        (list_old_name (normalize_list_name listParam)) ::
      customAdds catalog zoneDefs (decide (aggregateParam ≠ 0))
        (normalize_list_name listParam)
        (cc.foldl (addCountry catalog) [])
        (zone.foldl (addZone zoneDefs) []) customNets

/-- One step of the zone-member expansion of `/geoip.rsc`:
`selected_countries.add(c)` for a member `c` present in the catalog. -/
def addMember (catalog : List (PyStr × List Net)) (a : List PyStr)
    (c : PyStr) : List PyStr :=
  if hasKey catalog c = true ∧ c ∉ a then a ++ [c] else a

/-- One step of the zone loop of `/geoip.rsc`: a non-blank, known zone
token selects the zone and implicitly all of its member countries
present in the catalog. -/
def geoipZoneStep (catalog : List (PyStr × List Net))
    (zoneDefs : List (PyStr × List PyStr))
    (st : List PyStr × List PyStr) (zraw : PyStr) :
    List PyStr × List PyStr :=
  if pyupperStr (pystrip zraw) = [] then st
  else if hasKey zoneDefs (pyupperStr (pystrip zraw)) then
    ((lookupD zoneDefs (pyupperStr (pystrip zraw)) []).foldl
      (addMember catalog) st.1,
     if pyupperStr (pystrip zraw) ∈ st.2 then st.2
     else st.2 ++ [pyupperStr (pystrip zraw)])
  else st

/-- Selection phase of `/geoip.rsc`: countries from `cc`, then the zone
loop (both collections are Python sets, modelled as insertion-ordered
duplicate-free lists). -/
def geoipSelect (catalog : List (PyStr × List Net))
    (zoneDefs : List (PyStr × List PyStr)) (cc zone : List PyStr) :
    List PyStr × List PyStr :=
  zone.foldl (geoipZoneStep catalog zoneDefs)
    (cc.foldl (addCountry catalog) [], [])

/-- Per-country segments of `/geoip.rsc`: for each selected country
with catalog data, a swap directive for `prefix-<code>` followed by its
deduplicated add lines (fresh seen-set per list, no comments). -/
def geoipCountrySegs (catalog : List (PyStr × List Net)) (agg : Bool)
    (pfx : PyStr) : List PyStr → List Line
  | [] => []
  | c :: rest =>
    let nets := lookupD catalog c []
    if nets = [] then geoipCountrySegs catalog agg pfx rest
    else
      let ln := pfx ++ 45 :: pylowerStr c
      (Line.swap ln (list_old_name ln) ::
        (pydedupN (maybe_collapse_networks nets agg)).map
          (fun n => Line.add ln n none)) ++
        geoipCountrySegs catalog agg pfx rest

/-- Per-zone segments of `/geoip.rsc`: the swap directive for
`prefix-<ZONE>` is emitted unconditionally, followed by the
deduplicated add lines of the union over the zone's members that are in
the selected-country set. -/
def geoipZoneSegs (catalog : List (PyStr × List Net))
    (zoneDefs : List (PyStr × List PyStr)) (agg : Bool) (pfx : PyStr)
    (selC : List PyStr) : List PyStr → List Line
  | [] => []
  | z :: rest =>
    let ln := pfx ++ 45 :: z
    let netsZone := pydedupN ((lookupD zoneDefs z []).foldl
      (fun acc c =>
        if c ∈ selC then acc ++ lookupD catalog c [] else acc) [])
    (Line.swap ln (list_old_name ln) ::
      (pydedupN (maybe_collapse_networks netsZone agg)).map
        (fun n => Line.add ln n none)) ++
      geoipZoneSegs catalog zoneDefs agg pfx selC rest

/-- The `prefix-custom` segment of `/geoip.rsc` (present only when
custom networks were supplied). -/
def geoipCustomSeg (agg : Bool) (pfx : PyStr) (customNets : List Net) :
    List Line :=
  if customNets = [] then []
  else
    Line.swap (pfx ++ 45 :: customName)
        (list_old_name (pfx ++ 45 :: customName)) ::
      (pydedupN (maybe_collapse_networks customNets agg)).map
        (fun n => Line.add (pfx ++ 45 :: customName) n none)

/-- `/geoip.rsc` (`geoip_rsc` in the source): one address-list per
selected country and zone plus an optional `prefix-custom` list; a
single error directive only when the selection is empty. -/
def geoip_rsc (catalog : List (PyStr × List Net))
    (zoneDefs : List (PyStr × List PyStr)) (cc zone : List PyStr)
    (prefixParam : Option PyStr) (aggregateParam : Int)
    (customNets : List Net) : List Line :=
  if (geoipSelect catalog zoneDefs cc zone).1 = [] ∧
      (geoipSelect catalog zoneDefs cc zone).2 = [] ∧
      customNets = [] then
    [Line.errlog geoipErrMsg]
  else
    Line.header ::
      (geoipCountrySegs catalog (decide (aggregateParam ≠ 0))
          (normalize_pfx prefixParam geoipDashName)
          (sortedStrs (geoipSelect catalog zoneDefs cc zone).1) ++
        geoipZoneSegs catalog zoneDefs (decide (aggregateParam ≠ 0))
          (normalize_pfx prefixParam geoipDashName)
          (geoipSelect catalog zoneDefs cc zone).1
          (sortedStrs (geoipSelect catalog zoneDefs cc zone).2) ++
        geoipCustomSeg (decide (aggregateParam ≠ 0))
          (normalize_pfx prefixParam geoipDashName) customNets)

/-- The `(list name, address)` pairs of the add lines of a script. -/
def addPairs (lines : List Line) : List (PyStr × Net) :=
  lines.filterMap
    (fun l =>
      match l with
      | Line.add ln n _ => some (ln, n)
      | _ => none)

/-- The addresses of the add lines of a script (any list). -/
def netsOfLines (lines : List Line) : List Net :=
  lines.filterMap
    (fun l =>
      match l with
      | Line.add _ n _ => some n
      | _ => none)

/-!  ## Zone registry (`load_zone_defs`)  -/

/-- A YAML/JSON value, as far as `load_zone_defs` inspects it: string,
list, dict (string keys), number, or null.  A number is represented by
its Python truthiness (`num false` stands for falsy scalars such as
`0`, `0.0` or `False`; `num true` for any other number). -/
inductive Y where
  | s (v : PyStr)
  | l (items : List Y)
  | d (kvs : List (PyStr × Y))
  | num (truthy : Bool)
  | nullv

/-- "zones". -/
def zonesKey : PyStr := [122, 111, 110, 101, 115]

/-- "code". -/
def codeKey : PyStr := [99, 111, 100, 101]

/-- "countries". -/
def countriesKey : PyStr := [99, 111, 117, 110, 116, 114, 105, 101, 115]

/-- `yaml.safe_load(text) or {}`: a falsy parse result (null, empty
string/list/dict, or a falsy number such as `0`/`0.0`/`False`) is
replaced by the empty dict. -/
def pyOrEmptyDict (v : Y) : Y :=
  match v with
  | Y.s [] => Y.d []
  | Y.l [] => Y.d []
  | Y.d [] => Y.d []
  | Y.num false => Y.d []
  | Y.nullv => Y.d []
  | w => w

/-- Record-list form of a zone source: each dict item with a string
`code` and a list `countries` contributes `mapping[code] = countries`
(the display `name` field only feeds the UI catalog and is ignored
here). -/
def recsToMapping (items : List Y) : List (PyStr × Y) :=
  items.foldl
    (fun m it =>
      match it with
      | Y.d kvs =>
        match alookup kvs codeKey with
        | some (Y.s code) =>
          match alookup kvs countriesKey with
          | some (Y.l cs) => assocUpd m code (Y.l cs)
          | _ => m
        | _ => m
      | _ => m)
    []

/-- The raw `zones_data` mapping chosen by `load_zone_defs`: first the
zones YAML file (dict directly, dict under a "zones" key, or a record
list), then the legacy JSON config (dict only), else `none`.  A missing
or unparsable file is modelled as `none` input. -/
def zonesDataOf (yamlData legacy : Option Y) :
    Option (List (PyStr × Y)) :=
  let fromYaml : Option (List (PyStr × Y)) :=
    match yamlData with
    | none => none
    | some raw =>
      match pyOrEmptyDict raw with
      | Y.d kvs =>
        let zd : Y :=
          match alookup kvs zonesKey with
          | some v => v
          | none => Y.d kvs
        match zd with
        | Y.d zkvs => some zkvs
        | Y.l items =>
          match recsToMapping items with
          | [] => none
          | m => some m
        | _ => none
      | Y.l items =>
        match recsToMapping items with
        | [] => none
        | m => some m
      | _ => none
  match fromYaml with
  | some m => some m
  | none =>
    match legacy with
    | some (Y.d kvs) => some kvs
    | _ => none

/-- Cleaning pass of `load_zone_defs`: keep list-valued entries, zone
code upper-cased and stripped (skipped when empty), members that are
non-blank strings stripped and lower-cased, and drop zones with no
valid member. -/
def cleanZones (zd : List (PyStr × Y)) : List (PyStr × List PyStr) :=
  zd.foldl
    (fun cleaned p =>
      match p.2 with
      | Y.l cs =>
        let zn := pyupperStr (pystrip p.1)
        if zn = [] then cleaned
        else
          let ccodes := cs.foldl
            (fun a c =>
              match c with
              | Y.s v =>
                if pystrip v = [] then a else a ++ [pylowerStr (pystrip v)]
              | _ => a)
            []
          match ccodes with
          | [] => cleaned
          | _ => assocUpd cleaned zn ccodes
      | _ => cleaned)
    []

/-- "EU". -/
def euKey : PyStr := [69, 85]

/-- "US". -/
def usKey : PyStr := [85, 83]

/-- The 30 member country codes of the built-in default "EU" zone:
at be bg ch cy cz de dk ee es fi fr gr hr hu ie is it lt lu lv mt nl no
pl pt ro se si sk. -/
def defaultEUCodes : List PyStr :=
  [[97, 116], [98, 101], [98, 103], [99, 104], [99, 121], [99, 122],
   [100, 101], [100, 107], [101, 101], [101, 115], [102, 105],
   [102, 114], [103, 114], [104, 114], [104, 117], [105, 101],
   [105, 115], [105, 116], [108, 116], [108, 117], [108, 118],
   [109, 116], [110, 108], [110, 111], [112, 108], [112, 116],
   [114, 111], [115, 101], [115, 105], [115, 107]]

/-- The built-in default zone table used when no source is usable:
`{"EU": [30 codes], "US": ["us"]}`. -/
def defaultZones : List (PyStr × Y) :=
  [(euKey, Y.l (defaultEUCodes.map Y.s)),
   (usKey, Y.l [Y.s [117, 115]])]

/-- `load_zone_defs` from the source, as a function of the parsed zones
YAML value and the parsed legacy JSON value (file I/O and parse errors
are modelled by `none`): pick `zones_data`, falling back to the
built-in default table, then clean it into the registry. -/
def load_zone_defs (yamlData legacy : Option Y) :
    List (PyStr × List PyStr) :=
  match zonesDataOf yamlData legacy with
  | some zd => cleanZones zd
  | none => cleanZones defaultZones

/-!  ## Lemmas: sorting and coverage  -/

theorem sortNets_perm (l : List Net) : List.Perm (sortNets l) l :=
  List.perm_insertionSort netLE l

theorem sortNets_sorted (l : List Net) : List.Sorted netLE (sortNets l) :=
  List.sorted_insertionSort netLE l

theorem sortIvals_perm (l : List Ival) : List.Perm (sortIvals l) l :=
  List.perm_insertionSort ivalLE l

theorem sortIvals_sorted (l : List Ival) :
    List.Sorted ivalLE (sortIvals l) :=
  List.sorted_insertionSort ivalLE l

theorem memNets_nil (x : Nat) : ¬ memNets x [] := by
  rintro ⟨n, hn, -⟩
  exact absurd hn (List.not_mem_nil n)

theorem memNets_cons (x : Nat) (n : Net) (t : List Net) :
    memNets x (n :: t) ↔ memNet x n ∨ memNets x t := by
  constructor
  · rintro ⟨m, hm, hx⟩
    rcases List.mem_cons.mp hm with h | h
    · exact Or.inl (h ▸ hx)
    · exact Or.inr ⟨m, h, hx⟩
  · rintro (h | ⟨m, hm, hx⟩)
    · exact ⟨n, List.mem_cons_self n t, h⟩
    · exact ⟨m, List.mem_cons_of_mem n hm, hx⟩

theorem memNets_perm {l₁ l₂ : List Net} (h : List.Perm l₁ l₂) (x : Nat) :
    memNets x l₁ ↔ memNets x l₂ := by
  constructor
  · rintro ⟨n, hn, hx⟩
    exact ⟨n, h.mem_iff.mp hn, hx⟩
  · rintro ⟨n, hn, hx⟩
    exact ⟨n, h.mem_iff.mpr hn, hx⟩

theorem memNets_append (x : Nat) (l₁ l₂ : List Net) :
    memNets x (l₁ ++ l₂) ↔ memNets x l₁ ∨ memNets x l₂ := by
  constructor
  · rintro ⟨n, hn, hx⟩
    rcases List.mem_append.mp hn with h | h
    · exact Or.inl ⟨n, h, hx⟩
    · exact Or.inr ⟨n, h, hx⟩
  · rintro (⟨n, hn, hx⟩ | ⟨n, hn, hx⟩)
    · exact ⟨n, List.mem_append_left _ hn, hx⟩
    · exact ⟨n, List.mem_append_right _ hn, hx⟩

theorem covI_nil (x : Nat) : ¬ covI x [] := by
  rintro ⟨i, hi, -⟩
  exact absurd hi (List.not_mem_nil i)

theorem covI_cons (x : Nat) (i : Ival) (t : List Ival) :
    covI x (i :: t) ↔ (i.lo ≤ x ∧ x ≤ i.hi) ∨ covI x t := by
  constructor
  · rintro ⟨j, hj, hx⟩
    rcases List.mem_cons.mp hj with h | h
    · exact Or.inl (h ▸ hx)
    · exact Or.inr ⟨j, h, hx⟩
  · rintro (h | ⟨j, hj, hx⟩)
    · exact ⟨i, List.mem_cons_self i t, h⟩
    · exact ⟨j, List.mem_cons_of_mem i hj, hx⟩

theorem covI_perm {l₁ l₂ : List Ival} (h : List.Perm l₁ l₂) (x : Nat) :
    covI x l₁ ↔ covI x l₂ := by
  constructor
  · rintro ⟨i, hi, hx⟩
    exact ⟨i, h.mem_iff.mp hi, hx⟩
  · rintro ⟨i, hi, hx⟩
    exact ⟨i, h.mem_iff.mpr hi, hx⟩

theorem one_le_size (n : Net) : 1 ≤ n.size :=
  Nat.one_le_two_pow

/-- Coverage of a network coincides with coverage of its interval. -/
theorem memNet_toIval (x : Nat) (n : Net) :
    memNet x n ↔ (n.toIval.lo ≤ x ∧ x ≤ n.toIval.hi) := Iff.rfl

theorem covI_map_toIval (x : Nat) (l : List Net) :
    covI x (l.map Net.toIval) ↔ memNets x l := by
  constructor
  · rintro ⟨i, hi, hx⟩
    rcases List.mem_map.mp hi with ⟨n, hn, rfl⟩
    exact ⟨n, hn, hx⟩
  · rintro ⟨n, hn, hx⟩
    exact ⟨n.toIval, List.mem_map_of_mem Net.toIval hn, hx⟩

/-!  ## Lemmas: `mergeRuns`  -/

/-- Consecutive intervals leave a gap of at least one address. -/
def gapRel (a b : Ival) : Prop := a.hi + 1 < b.lo

/-- Canonical form of a run list: consecutive runs are separated. -/
def Gapped (l : List Ival) : Prop := l.Chain' gapRel

/-- Every interval is non-degenerate. -/
def WFI (l : List Ival) : Prop := ∀ i ∈ l, i.lo ≤ i.hi

theorem mergeRuns_covI (l : List Ival) (hs : List.Sorted ivalLE l)
    (x : Nat) : covI x (mergeRuns l) ↔ covI x l := by
  induction l using mergeRuns.induct with
  | case1 => simp [mergeRuns]
  | case2 a => simp [mergeRuns]
  | case3 a b rest hmerge ih =>
    rw [mergeRuns, if_pos hmerge]
    have hsorted : List.Sorted ivalLE (⟨a.lo, max a.hi b.hi⟩ :: rest) := by
      rcases List.pairwise_cons.mp hs with ⟨ha, hs'⟩
      rcases List.pairwise_cons.mp hs' with ⟨hb, hrest⟩
      refine List.pairwise_cons.mpr ⟨fun j hj => ?_, hrest⟩
      exact ha j (List.mem_cons_of_mem b hj)
    rw [ih hsorted, covI_cons, covI_cons, covI_cons]
    dsimp only
    have hab : a.lo ≤ b.lo := by
      rcases List.pairwise_cons.mp hs with ⟨ha, -⟩
      exact ha b (List.mem_cons_self b rest)
    have hmx := max_choice a.hi b.hi
    have hmx1 := Nat.le_max_left a.hi b.hi
    have hmx2 := Nat.le_max_right a.hi b.hi
    constructor
    · rintro (h | h)
      · rcases hmx with he | he <;> rw [he] at h <;> omega
      · exact Or.inr (Or.inr h)
    · rintro (h | h | h)
      · exact Or.inl (by omega)
      · exact Or.inl (by omega)
      · exact Or.inr h
  | case4 a b rest hmerge ih =>
    rw [mergeRuns, if_neg hmerge]
    have hs' : List.Sorted ivalLE (b :: rest) :=
      (List.pairwise_cons.mp hs).2
    rw [covI_cons, covI_cons, ih hs']

/-!  ## Lemmas: `summarize` and `collapseList`  -/

theorem ctzFuel_le (fuel x : Nat) : ctzFuel fuel x ≤ fuel := by
  induction fuel generalizing x with
  | zero => simp [ctzFuel]
  | succ f ih =>
    rw [ctzFuel]
    split
    · omega
    · have := ih (x / 2)
      omega

theorem ctz32_le (x : Nat) : ctz32 x ≤ 32 := by
  rw [ctz32]
  split
  · exact Nat.le_refl 32
  · exact ctzFuel_le 32 x

theorem nbitsFor_le (first last : Nat) : nbitsFor first last ≤ 32 :=
  Nat.le_trans (Nat.min_le_left _ _) (ctz32_le first)

theorem pow_nbitsFor_le (first last : Nat) :
    2 ^ nbitsFor first last ≤ last - first + 1 := by
  have h1 : 2 ^ Nat.log 2 (last - first + 1) ≤ last - first + 1 :=
    Nat.pow_log_le_self 2 (by omega)
  have h2 : 2 ^ nbitsFor first last ≤ 2 ^ Nat.log 2 (last - first + 1) :=
    Nat.pow_le_pow_right (by norm_num) (Nat.min_le_right _ _)
  omega

theorem memNets_summarize (first last x : Nat) :
    memNets x (summarize first last) ↔ (first ≤ x ∧ x ≤ last) := by
  induction first, last using summarize.induct with
  | case1 first last h ih =>
    rw [summarize, dif_pos h, memNets_cons, ih]
    have h32 : 32 - (32 - nbitsFor first last) = nbitsFor first last := by
      have := nbitsFor_le first last
      omega
    have hone : 1 ≤ 2 ^ nbitsFor first last := Nat.one_le_two_pow
    have hle := pow_nbitsFor_le first last
    rw [memNet]
    show first ≤ x ∧
        x ≤ first + 2 ^ (32 - (32 - nbitsFor first last)) - 1 ∨ _ ↔ _
    rw [h32]
    omega
  | case2 first last h =>
    rw [summarize, dif_neg h]
    constructor
    · intro hx
      exact absurd hx (memNets_nil x)
    · intro hx
      omega

theorem memNets_collapseList (nets : List Net) (x : Nat) :
    memNets x (collapseList nets) ↔ memNets x nets := by
  have h1 : memNets x (collapseList nets) ↔
      covI x (mergeRuns (sortIvals (nets.map Net.toIval))) := by
    rw [collapseList]
    constructor
    · rintro ⟨n, hn, hx⟩
      rcases List.mem_flatMap.mp hn with ⟨i, hi, hni⟩
      have := (memNets_summarize i.lo i.hi x).mp ⟨n, hni, hx⟩
      exact ⟨i, hi, this⟩
    · rintro ⟨i, hi, hx⟩
      rcases (memNets_summarize i.lo i.hi x).mpr hx with ⟨n, hn, hxn⟩
      exact ⟨n, List.mem_flatMap.mpr ⟨i, hi, hn⟩, hxn⟩
  rw [h1,
    mergeRuns_covI _ (sortIvals_sorted (nets.map Net.toIval)) x,
    covI_perm (sortIvals_perm (nets.map Net.toIval)) x,
    covI_map_toIval]

/-- Core coverage lemma: `maybe_collapse_networks` neither drops nor
adds any IP address, for both values of the aggregate flag. -/
theorem memNets_maybe_collapse (nets : List Net) (agg : Bool) (x : Nat) :
    memNets x (maybe_collapse_networks nets agg) ↔ memNets x nets := by
  rw [maybe_collapse_networks]
  split
  · exact memNets_perm (sortNets_perm nets) x
  · rw [memNets_perm (sortNets_perm (collapseList nets)) x,
      memNets_collapseList]

/-!  ## Lemmas: canonical run decomposition  -/

theorem mergeRuns_head_aux : ∀ (n : Nat) (a : Ival) (t : List Ival),
    t.length ≤ n →
    ∃ h' t', mergeRuns (a :: t) = h' :: t' ∧ h'.lo = a.lo := by
  intro n
  induction n with
  | zero =>
    intro a t hlen
    have ht : t = [] := List.eq_nil_of_length_eq_zero (by omega)
    subst ht
    exact ⟨a, [], by rw [mergeRuns], rfl⟩
  | succ n ih =>
    intro a t hlen
    cases t with
    | nil => exact ⟨a, [], by rw [mergeRuns], rfl⟩
    | cons b rest =>
      by_cases hmerge : b.lo ≤ a.hi + 1
      · rcases ih ⟨a.lo, max a.hi b.hi⟩ rest (by simp at hlen; omega) with
          ⟨h', t', he, hlo⟩
        exact ⟨h', t', by rw [mergeRuns, if_pos hmerge, he], hlo⟩
      · exact ⟨a, mergeRuns (b :: rest),
          by rw [mergeRuns, if_neg hmerge], rfl⟩

theorem mergeRuns_head (a : Ival) (t : List Ival) :
    ∃ h' t', mergeRuns (a :: t) = h' :: t' ∧ h'.lo = a.lo :=
  mergeRuns_head_aux t.length a t (Nat.le_refl _)

theorem mergeRuns_gapped (l : List Ival) (hs : List.Sorted ivalLE l)
    (hw : WFI l) : Gapped (mergeRuns l) ∧ WFI (mergeRuns l) := by
  induction l using mergeRuns.induct with
  | case1 =>
    rw [mergeRuns]
    exact ⟨List.chain'_nil, fun i hi => absurd hi (List.not_mem_nil i)⟩
  | case2 a =>
    rw [mergeRuns]
    exact ⟨List.chain'_singleton a, hw⟩
  | case3 a b rest hmerge ih =>
    rw [mergeRuns, if_pos hmerge]
    have hsorted : List.Sorted ivalLE (⟨a.lo, max a.hi b.hi⟩ :: rest) := by
      rcases List.pairwise_cons.mp hs with ⟨ha, hs'⟩
      rcases List.pairwise_cons.mp hs' with ⟨hb, hrest⟩
      exact List.pairwise_cons.mpr
        ⟨fun j hj => ha j (List.mem_cons_of_mem b hj), hrest⟩
    have hwf : WFI (⟨a.lo, max a.hi b.hi⟩ :: rest) := by
      intro i hi
      rcases List.mem_cons.mp hi with rfl | hi
      · have h1 : a.lo ≤ a.hi := hw a (List.mem_cons_self a _)
        have h2 := Nat.le_max_left a.hi b.hi
        exact Nat.le_trans h1 h2
      · exact hw i (List.mem_cons_of_mem a (List.mem_cons_of_mem b hi))
    exact ih hsorted hwf
  | case4 a b rest hmerge ih =>
    rw [mergeRuns, if_neg hmerge]
    have hs' : List.Sorted ivalLE (b :: rest) :=
      (List.pairwise_cons.mp hs).2
    have hw' : WFI (b :: rest) :=
      fun i hi => hw i (List.mem_cons_of_mem a hi)
    rcases ih hs' hw' with ⟨hg, hwm⟩
    constructor
    · rcases mergeRuns_head b rest with ⟨h', t', he, hlo⟩
      rw [he]
      rw [he] at hg
      refine List.chain'_cons.mpr ⟨?_, hg⟩
      rw [gapRel, hlo]
      omega
    · intro i hi
      rcases List.mem_cons.mp hi with rfl | hi
      · exact hw i (List.mem_cons_self i _)
      · exact hwm i hi

theorem gapped_all_lo {a : Ival} {l : List Ival} (hg : Gapped (a :: l))
    (hw : WFI l) : ∀ i ∈ l, a.hi + 1 < i.lo := by
  induction l generalizing a with
  | nil => intro i hi; exact absurd hi (List.not_mem_nil i)
  | cons b t ih =>
    rcases List.chain'_cons.mp hg with ⟨hab, hg'⟩
    intro i hi
    rcases List.mem_cons.mp hi with rfl | hi
    · exact hab
    · have hbt : WFI t := fun j hj => hw j (List.mem_cons_of_mem b hj)
      have h1 := ih hg' hbt i hi
      have h2 : b.lo ≤ b.hi := hw b (List.mem_cons_self b t)
      rw [gapRel] at hab
      omega

theorem gapped_unique : ∀ (l₁ l₂ : List Ival), WFI l₁ → WFI l₂ →
    Gapped l₁ → Gapped l₂ → (∀ x, covI x l₁ ↔ covI x l₂) → l₁ = l₂ := by
  intro l₁
  induction l₁ with
  | nil =>
    intro l₂ _ hw₂ _ _ hcov
    cases l₂ with
    | nil => rfl
    | cons b t =>
      exfalso
      have hb : covI b.lo (b :: t) :=
        ⟨b, List.mem_cons_self b t, Nat.le_refl _,
          hw₂ b (List.mem_cons_self b t)⟩
      exact covI_nil b.lo ((hcov b.lo).mpr hb)
  | cons a t₁ ih =>
    intro l₂ hw₁ hw₂ hg₁ hg₂ hcov
    cases l₂ with
    | nil =>
      exfalso
      have haa : covI a.lo (a :: t₁) :=
        ⟨a, List.mem_cons_self a t₁, Nat.le_refl _,
          hw₁ a (List.mem_cons_self a t₁)⟩
      exact covI_nil a.lo ((hcov a.lo).mp haa)
    | cons b t₂ =>
      have hwa : a.lo ≤ a.hi := hw₁ a (List.mem_cons_self a t₁)
      have hwb : b.lo ≤ b.hi := hw₂ b (List.mem_cons_self b t₂)
      have hw₁' : WFI t₁ := fun i hi => hw₁ i (List.mem_cons_of_mem a hi)
      have hw₂' : WFI t₂ := fun i hi => hw₂ i (List.mem_cons_of_mem b hi)
      have hlt₁ := gapped_all_lo hg₁ hw₁'
      have hlt₂ := gapped_all_lo hg₂ hw₂'
      -- the two heads start together
      have hlo : a.lo = b.lo := by
        have h1 : covI a.lo (b :: t₂) :=
          (hcov a.lo).mp ⟨a, List.mem_cons_self a t₁, Nat.le_refl _, hwa⟩
        have h2 : covI b.lo (a :: t₁) :=
          (hcov b.lo).mpr ⟨b, List.mem_cons_self b t₂, Nat.le_refl _, hwb⟩
        rcases h1 with ⟨i, hi, hilo, hihi⟩
        rcases h2 with ⟨j, hj, hjlo, hjhi⟩
        rcases List.mem_cons.mp hi with rfl | hi
        · rcases List.mem_cons.mp hj with rfl | hj
          · omega
          · have := hlt₁ j hj; omega
        · have := hlt₂ i hi
          rcases List.mem_cons.mp hj with rfl | hj
          · omega
          · have := hlt₁ j hj; omega
      -- the two heads end together
      have hhi : a.hi = b.hi := by
        by_contra hne
        rcases Nat.lt_or_ge a.hi b.hi with hlt | hge
        · have h1 : covI (a.hi + 1) (b :: t₂) :=
            ⟨b, List.mem_cons_self b t₂, by omega, by omega⟩
          rcases (hcov (a.hi + 1)).mpr h1 with ⟨i, hi, hilo, hihi⟩
          rcases List.mem_cons.mp hi with rfl | hi
          · omega
          · have := hlt₁ i hi; omega
        · have hlt' : b.hi < a.hi := by omega
          have h1 : covI (b.hi + 1) (a :: t₁) :=
            ⟨a, List.mem_cons_self a t₁, by omega, by omega⟩
          rcases (hcov (b.hi + 1)).mp h1 with ⟨i, hi, hilo, hihi⟩
          rcases List.mem_cons.mp hi with rfl | hi
          · omega
          · have := hlt₂ i hi; omega
      -- the tails cover the same addresses
      have hcov' : ∀ x, covI x t₁ ↔ covI x t₂ := by
        intro x
        constructor
        · rintro ⟨i, hi, hilo, hihi⟩
          have hx : a.hi + 1 < x := by
            have := hlt₁ i hi; omega
          rcases (hcov x).mp
              ⟨i, List.mem_cons_of_mem a hi, hilo, hihi⟩ with
            ⟨j, hj, hjlo, hjhi⟩
          rcases List.mem_cons.mp hj with rfl | hj
          · omega
          · exact ⟨j, hj, hjlo, hjhi⟩
        · rintro ⟨i, hi, hilo, hihi⟩
          have hx : b.hi + 1 < x := by
            have := hlt₂ i hi; omega
          rcases (hcov x).mpr
              ⟨i, List.mem_cons_of_mem b hi, hilo, hihi⟩ with
            ⟨j, hj, hjlo, hjhi⟩
          rcases List.mem_cons.mp hj with rfl | hj
          · omega
          · exact ⟨j, hj, hjlo, hjhi⟩
      have hg₁' : Gapped t₁ := hg₁.tail
      have hg₂' : Gapped t₂ := hg₂.tail
      have htail := ih t₂ hw₁' hw₂' hg₁' hg₂' hcov'
      have hab : a = b := by
        cases a; cases b
        simp only [Ival.mk.injEq]
        exact ⟨hlo, hhi⟩
      rw [hab, htail]

/-!  ## Lemmas: aggregation as a function of coverage  -/

theorem collapseList_eq_of_cov (l₁ l₂ : List Net)
    (h : ∀ x, memNets x l₁ ↔ memNets x l₂) :
    collapseList l₁ = collapseList l₂ := by
  have hw₁ : WFI (sortIvals (l₁.map Net.toIval)) := by
    intro i hi
    have hi' := (sortIvals_perm (l₁.map Net.toIval)).mem_iff.mp hi
    rcases List.mem_map.mp hi' with ⟨n, hn, rfl⟩
    have := one_le_size n
    rw [Net.toIval]
    dsimp only
    omega
  have hw₂ : WFI (sortIvals (l₂.map Net.toIval)) := by
    intro i hi
    have hi' := (sortIvals_perm (l₂.map Net.toIval)).mem_iff.mp hi
    rcases List.mem_map.mp hi' with ⟨n, hn, rfl⟩
    have := one_le_size n
    rw [Net.toIval]
    dsimp only
    omega
  have hmg₁ := mergeRuns_gapped _ (sortIvals_sorted (l₁.map Net.toIval)) hw₁
  have hmg₂ := mergeRuns_gapped _ (sortIvals_sorted (l₂.map Net.toIval)) hw₂
  have hcov : ∀ x, covI x (mergeRuns (sortIvals (l₁.map Net.toIval))) ↔
      covI x (mergeRuns (sortIvals (l₂.map Net.toIval))) := by
    intro x
    rw [mergeRuns_covI _ (sortIvals_sorted (l₁.map Net.toIval)) x,
      mergeRuns_covI _ (sortIvals_sorted (l₂.map Net.toIval)) x,
      covI_perm (sortIvals_perm (l₁.map Net.toIval)) x,
      covI_perm (sortIvals_perm (l₂.map Net.toIval)) x,
      covI_map_toIval, covI_map_toIval]
    exact h x
  have heq := gapped_unique _ _ hmg₁.2 hmg₂.2 hmg₁.1 hmg₂.1 hcov
  rw [collapseList, collapseList, heq]

theorem memNets_of_ne_nil {l : List Net} (h : l ≠ []) :
    ∃ x, memNets x l := by
  cases l with
  | nil => exact absurd rfl h
  | cons n t =>
    refine ⟨n.addr, n, List.mem_cons_self n t, Nat.le_refl _, ?_⟩
    have := one_le_size n
    rw [Net.hi]
    omega

theorem perm_ne_nil {l₁ l₂ : List Net} (h : List.Perm l₁ l₂)
    (hne : l₁ ≠ []) : l₂ ≠ [] := by
  intro hc
  subst hc
  exact hne h.eq_nil

theorem collapseList_ne_nil {nets : List Net} (h : nets ≠ []) :
    collapseList nets ≠ [] := by
  intro hc
  rcases memNets_of_ne_nil h with ⟨x, hx⟩
  have := (memNets_collapseList nets x).mpr hx
  rw [hc] at this
  exact memNets_nil x this

theorem maybe_collapse_ne_nil {nets : List Net} (agg : Bool)
    (h : nets ≠ []) : maybe_collapse_networks nets agg ≠ [] := by
  rw [maybe_collapse_networks]
  split
  · exact perm_ne_nil (sortNets_perm nets).symm h
  · exact perm_ne_nil (sortNets_perm (collapseList nets)).symm
      (collapseList_ne_nil h)

/-- Collapsing is a pure function of the covered address set. -/
theorem maybe_collapse_true_eq_of_cov (l₁ l₂ : List Net)
    (hne₁ : l₁ ≠ []) (hne₂ : l₂ ≠ [])
    (h : ∀ x, memNets x l₁ ↔ memNets x l₂) :
    maybe_collapse_networks l₁ true = maybe_collapse_networks l₂ true := by
  rw [maybe_collapse_networks, maybe_collapse_networks,
    if_neg (by simp [hne₁]), if_neg (by simp [hne₂]),
    collapseList_eq_of_cov l₁ l₂ h]

/-- Idempotence of collapsing aggregation. -/
theorem maybe_collapse_idem (nets : List Net) :
    maybe_collapse_networks (maybe_collapse_networks nets true) true =
      maybe_collapse_networks nets true := by
  by_cases hne : nets = []
  · subst hne
    rfl
  · have hout : maybe_collapse_networks nets true ≠ [] :=
      maybe_collapse_ne_nil true hne
    have hcov : ∀ x, memNets x (maybe_collapse_networks nets true) ↔
        memNets x nets := memNets_maybe_collapse nets true
    rw [maybe_collapse_true_eq_of_cov _ nets hout hne hcov]

/-- Order-independence of collapsing aggregation. -/
theorem maybe_collapse_true_perm (l₁ l₂ : List Net)
    (h : List.Perm l₁ l₂) :
    maybe_collapse_networks l₁ true = maybe_collapse_networks l₂ true := by
  by_cases hne : l₁ = []
  · subst hne
    rw [h.symm.eq_nil]
  · exact maybe_collapse_true_eq_of_cov l₁ l₂ hne
      (perm_ne_nil h hne) (memNets_perm h)

/-!  ## Lemmas: stable sort determinism on distinct keys  -/

theorem pairwise_strict {l : List Net} (h1 : List.Pairwise netLE l)
    (h2 : List.Pairwise (fun a b => a.addr ≠ b.addr) l) :
    List.Pairwise (fun a b : Net => a.addr < b.addr) l := by
  induction l with
  | nil => exact List.Pairwise.nil
  | cons a t ih =>
    rcases List.pairwise_cons.mp h1 with ⟨ha1, h1'⟩
    rcases List.pairwise_cons.mp h2 with ⟨ha2, h2'⟩
    exact List.pairwise_cons.mpr
      ⟨fun b hb => Nat.lt_of_le_of_ne (ha1 b hb) (ha2 b hb), ih h1' h2'⟩

theorem sortNets_eq_of_perm (l₁ l₂ : List Net) (h : List.Perm l₁ l₂)
    (hd : List.Pairwise (fun a b : Net => a.addr ≠ b.addr) l₁) :
    sortNets l₁ = sortNets l₂ := by
  have hp : List.Perm (sortNets l₁) (sortNets l₂) :=
    (sortNets_perm l₁).trans (h.trans (sortNets_perm l₂).symm)
  have hd₁ : List.Pairwise (fun a b : Net => a.addr ≠ b.addr)
      (sortNets l₁) :=
    ((sortNets_perm l₁).pairwise_iff (fun h' => Ne.symm h')).mpr hd
  have hd₂ : List.Pairwise (fun a b : Net => a.addr ≠ b.addr)
      (sortNets l₂) :=
    ((sortNets_perm l₂).pairwise_iff (fun h' => Ne.symm h')).mpr
      ((h.pairwise_iff (fun h' => Ne.symm h')).mp hd)
  have hs₁ := pairwise_strict (sortNets_sorted l₁) hd₁
  have hs₂ := pairwise_strict (sortNets_sorted l₂) hd₂
  haveI : IsAntisymm Net (fun a b : Net => a.addr < b.addr) :=
    ⟨fun a b hab hba => absurd hab (Nat.lt_asymm hba)⟩
  exact List.eq_of_perm_of_sorted hp hs₁ hs₂

/-!  ## Lemmas: the seen-set loop  -/

theorem emitNets_mem : ∀ (nets seen : List Net) (n : Net),
    n ∈ (emitNets nets seen).1 → n ∈ nets ∧ n ∉ seen := by
  intro nets
  induction nets with
  | nil =>
    intro seen n hn
    rw [emitNets] at hn
    exact absurd hn (List.not_mem_nil n)
  | cons m rest ih =>
    intro seen n hn
    rw [emitNets] at hn
    by_cases hm : m ∈ seen
    · rw [if_pos hm] at hn
      rcases ih seen n hn with ⟨h1, h2⟩
      exact ⟨List.mem_cons_of_mem m h1, h2⟩
    · rw [if_neg hm] at hn
      rcases List.mem_cons.mp hn with rfl | hn
      · exact ⟨List.mem_cons_self n rest, hm⟩
      · rcases ih (m :: seen) n hn with ⟨h1, h2⟩
        exact ⟨List.mem_cons_of_mem m h1,
          fun hc => h2 (List.mem_cons_of_mem m hc)⟩

theorem emitNets_covers : ∀ (nets seen : List Net) (n : Net),
    n ∈ nets → n ∈ seen ∨ n ∈ (emitNets nets seen).1 := by
  intro nets
  induction nets with
  | nil =>
    intro seen n hn
    exact absurd hn (List.not_mem_nil n)
  | cons m rest ih =>
    intro seen n hn
    rw [emitNets]
    by_cases hm : m ∈ seen
    · rw [if_pos hm]
      rcases List.mem_cons.mp hn with rfl | hn
      · exact Or.inl hm
      · exact ih seen n hn
    · rw [if_neg hm]
      rcases List.mem_cons.mp hn with rfl | hn
      · exact Or.inr (List.mem_cons_self n _)
      · rcases ih (m :: seen) n hn with hseen | hem
        · rcases List.mem_cons.mp hseen with rfl | hs
          · exact Or.inr (List.mem_cons_self n _)
          · exact Or.inl hs
        · exact Or.inr (List.mem_cons_of_mem m hem)

theorem emitNets_nodup : ∀ (nets seen : List Net),
    ((emitNets nets seen).1).Nodup := by
  intro nets
  induction nets with
  | nil =>
    intro seen
    rw [emitNets]
    exact List.nodup_nil
  | cons m rest ih =>
    intro seen
    rw [emitNets]
    by_cases hm : m ∈ seen
    · rw [if_pos hm]
      exact ih seen
    · rw [if_neg hm]
      refine List.nodup_cons.mpr ⟨?_, ih (m :: seen)⟩
      intro hc
      exact (emitNets_mem rest (m :: seen) m hc).2
        (List.mem_cons_self m seen)

theorem emitNets_seen : ∀ (nets seen : List Net) (n : Net),
    n ∈ (emitNets nets seen).2 ↔ n ∈ seen ∨ n ∈ (emitNets nets seen).1 := by
  intro nets
  induction nets with
  | nil =>
    intro seen n
    rw [emitNets]
    simp
  | cons m rest ih =>
    intro seen n
    rw [emitNets]
    by_cases hm : m ∈ seen
    · rw [if_pos hm]
      exact ih seen n
    · rw [if_neg hm]
      dsimp only
      rw [ih (m :: seen) n]
      constructor
      · rintro (hs | he)
        · rcases List.mem_cons.mp hs with rfl | hs
          · exact Or.inr (List.mem_cons_self n _)
          · exact Or.inl hs
        · exact Or.inr (List.mem_cons_of_mem m he)
      · rintro (hs | he)
        · exact Or.inl (List.mem_cons_of_mem m hs)
        · rcases List.mem_cons.mp he with rfl | he
          · exact Or.inl (List.mem_cons_self n _)
          · exact Or.inr he

theorem mem_pydedupN (nets : List Net) (n : Net) :
    n ∈ pydedupN nets ↔ n ∈ nets := by
  rw [pydedupN]
  constructor
  · intro hn
    exact (emitNets_mem nets [] n hn).1
  · intro hn
    rcases emitNets_covers nets [] n hn with hs | he
    · exact absurd hs (List.not_mem_nil n)
    · exact he

theorem pydedupN_nodup (nets : List Net) : (pydedupN nets).Nodup :=
  emitNets_nodup nets []

theorem pydedupN_ne_nil {nets : List Net} (h : nets ≠ []) :
    pydedupN nets ≠ [] := by
  cases nets with
  | nil => exact absurd rfl h
  | cons m rest =>
    intro hc
    have : m ∈ pydedupN (m :: rest) :=
      (mem_pydedupN _ m).mpr (List.mem_cons_self m rest)
    rw [hc] at this
    exact List.not_mem_nil m this

theorem memNets_pydedupN (nets : List Net) (x : Nat) :
    memNets x (pydedupN nets) ↔ memNets x nets := by
  constructor
  · rintro ⟨n, hn, hx⟩
    exact ⟨n, (mem_pydedupN nets n).mp hn, hx⟩
  · rintro ⟨n, hn, hx⟩
    exact ⟨n, (mem_pydedupN nets n).mpr hn, hx⟩

/-!  ## Claims C2, C3, C6, C7: the Aggregator  -/

/-- Claim C2, counterexample: with `collapse = false` the aggregate
operation does not deduplicate — a duplicated `0.0.0.0/32` input is
returned twice, not once as the claim's "deduplicated by canonical CIDR
string" requires. -/
theorem c2_counterexample :
    maybe_collapse_networks [Net.mk 0 32, Net.mk 0 32] false =
      [Net.mk 0 32, Net.mk 0 32] ∧
    maybe_collapse_networks [Net.mk 0 32, Net.mk 0 32] false ≠
      [Net.mk 0 32] := by
  decide

/-- Claim C2 (amended): with `collapse = false` the aggregate operation
returns the input sequence sorted ascending by numeric network address,
as a permutation of the input — duplicates are preserved, not removed
(deduplication happens later, per list, via the emission seen-set). -/
theorem c2_sorted_perm (l : List Net) :
    List.Perm (maybe_collapse_networks l false) l ∧
      List.Sorted netLE (maybe_collapse_networks l false) := by
  have he : maybe_collapse_networks l false = sortNets l := by
    rw [maybe_collapse_networks, if_pos (Or.inl rfl)]
  rw [he]
  exact ⟨sortNets_perm l, sortNets_sorted l⟩

/-- Claim C3, counterexample: with `collapse = false` the operation is
not a pure function of the input set — `0.0.0.0/31` and `0.0.0.0/32`
share the numeric network address 0, so the stable sort preserves their
input order and two permutations of the same set give different output
sequences. -/
theorem c3_counterexample :
    List.Perm [Net.mk 0 31, Net.mk 0 32] [Net.mk 0 32, Net.mk 0 31] ∧
    maybe_collapse_networks [Net.mk 0 31, Net.mk 0 32] false ≠
      maybe_collapse_networks [Net.mk 0 32, Net.mk 0 31] false :=
  ⟨List.Perm.swap _ _ _, by decide⟩

/-- Claim C3 (amended): with `collapse = true` the aggregate operation
is a pure function of the input set (order never matters); with
`collapse = false` it is order-independent provided no two input
networks share the same numeric network address (the sort key), since
the sort is stable on that key alone. -/
theorem c3_order_independent :
    (∀ l₁ l₂ : List Net, List.Perm l₁ l₂ →
      maybe_collapse_networks l₁ true = maybe_collapse_networks l₂ true) ∧
    (∀ l₁ l₂ : List Net, List.Perm l₁ l₂ →
      List.Pairwise (fun a b : Net => a.addr ≠ b.addr) l₁ →
      maybe_collapse_networks l₁ false =
        maybe_collapse_networks l₂ false) := by
  constructor
  · exact maybe_collapse_true_perm
  · intro l₁ l₂ h hd
    rw [maybe_collapse_networks, maybe_collapse_networks,
      if_pos (Or.inl rfl), if_pos (Or.inl rfl)]
    exact sortNets_eq_of_perm l₁ l₂ h hd

/-- Witness for C3: both halves applied to the concrete permutation
`[0.0.0.8/29, 0.0.0.0/29] ~ [0.0.0.0/29, 0.0.0.8/29]`. -/
theorem c3_order_independent_witness :
    maybe_collapse_networks [Net.mk 8 29, Net.mk 0 29] true =
      maybe_collapse_networks [Net.mk 0 29, Net.mk 8 29] true ∧
    maybe_collapse_networks [Net.mk 8 29, Net.mk 0 29] false =
      maybe_collapse_networks [Net.mk 0 29, Net.mk 8 29] false :=
  ⟨c3_order_independent.1 _ _ (List.Perm.swap _ _ _),
   c3_order_independent.2 _ _ (List.Perm.swap _ _ _) (by decide)⟩

/-- Claim C6: the aggregate operation with `collapse = true` is
idempotent — aggregating an already-aggregated set returns the same
sequence. -/
theorem c6_idempotent (S : List Net) :
    maybe_collapse_networks (maybe_collapse_networks S true) true =
      maybe_collapse_networks S true :=
  maybe_collapse_idem S

/-- Claim C7: for both values of the collapse flag, the aggregate
operation covers exactly the union of addresses covered by its input —
no IP address is dropped or added. -/
theorem c7_coverage (l : List Net) (agg : Bool) (x : Nat) :
    memNets x (maybe_collapse_networks l agg) ↔ memNets x l :=
  memNets_maybe_collapse l agg x

/-!  ## Claim C4: zone registry rebuild  -/

/-- Claim C4, counterexample: the fallback to the built-in default
happens only when no source yields a `zones_data` mapping, not when the
mapping cleans to nothing.  A zones source parsing as the empty dict
`{}`, as `{"EU": []}` (a zone with no members), or as a falsy scalar
such as `0` (turned into `{}` by the source's `or {}`) produces an
*empty* registry. -/
theorem c4_counterexample :
    load_zone_defs (some (Y.d [])) none = [] ∧
    load_zone_defs (some (Y.d [(euKey, Y.l [])])) none = [] ∧
    load_zone_defs (some (Y.num false)) none = [] := by
  decide

/-- Claim C4 (amended): when no source yields a zones mapping (missing
or unparsable files, non-dict/non-list data, or an empty record list),
`load_zone_defs` falls back to the built-in default zone table, whose
cleaned registry is non-empty; but a source that does yield a mapping
is not re-checked after cleaning, so a degenerate mapping (e.g. `{}` or
`{"EU": []}`) produces an empty registry. -/
theorem c4_default_fallback (y l : Option Y)
    (h : zonesDataOf y l = none) :
    load_zone_defs y l = cleanZones defaultZones ∧
      cleanZones defaultZones ≠ [] := by
  constructor
  · rw [load_zone_defs, h]
  · decide

/-- Witness for C4: both sources absent. -/
theorem c4_default_fallback_witness :
    load_zone_defs none none = cleanZones defaultZones ∧
      cleanZones defaultZones ≠ [] :=
  c4_default_fallback none none rfl

/-!  ## Claim C9: list-name and prefix sanitization  -/

theorem pysubClass_all (s : PyStr) :
    (pysubClass s).all isClassChar = true := by
  rw [List.all_eq_true]
  intro c hc
  rcases List.mem_map.mp hc with ⟨c0, -, rfl⟩
  by_cases h : isClassChar c0 = true
  · rw [if_pos h]
    exact h
  · rw [if_neg h]
    decide

theorem mem_pyrstripDash {c : Nat} {s : PyStr} (hc : c ∈ pyrstripDash s) :
    c ∈ s := by
  rw [pyrstripDash, List.mem_reverse] at hc
  exact List.mem_reverse.mp ((List.dropWhile_sublist _).mem hc)

theorem pyrstripDash_all {s : PyStr}
    (h : s.all isClassChar = true) :
    (pyrstripDash s).all isClassChar = true := by
  rw [List.all_eq_true] at h ⊢
  intro c hc
  exact h c (mem_pyrstripDash hc)

theorem all_take {p : Nat → Bool} {s : PyStr}
    (h : s.all p = true) (n : Nat) : (s.take n).all p = true := by
  rw [List.all_eq_true] at h ⊢
  intro c hc
  exact h c (List.mem_of_mem_take hc)

theorem take_ne_nil {s : PyStr} (h : s ≠ []) {n : Nat} (hn : 1 ≤ n) :
    s.take n ≠ [] := by
  cases s with
  | nil => exact absurd rfl h
  | cons c t =>
    cases n with
    | zero => omega
    | succ m => simp

/-- Properties of the final truncation step shared by both naming
functions. -/
theorem take_props {s : PyStr} (hall : s.all isClassChar = true)
    (hne : s ≠ []) {n : Nat} (hn : 1 ≤ n) :
    (s.take n).all isClassChar = true ∧ (s.take n).length ≤ n ∧
      s.take n ≠ [] :=
  ⟨all_take hall n, List.length_take_le n s, take_ne_nil hne hn⟩

theorem normalize_list_name_props (raw : Option PyStr) :
    (normalize_list_name raw).all isClassChar = true ∧
      (normalize_list_name raw).length ≤ 63 ∧
      normalize_list_name raw ≠ [] := by
  have hgeo : geoipName.all isClassChar = true ∧ geoipName.length ≤ 63 ∧
      geoipName ≠ [] := by decide
  cases raw with
  | none =>
    simp only [normalize_list_name]
    exact hgeo
  | some r =>
    simp only [normalize_list_name]
    by_cases hr : r = []
    · rw [if_pos hr]
      exact hgeo
    · rw [if_neg hr]
      by_cases hs : pystrip r = []
      · rw [if_pos hs]
        exact hgeo
      · rw [if_neg hs]
        by_cases hc : pysubClass (pystrip r) = []
        · rw [if_pos hc]
          exact hgeo
        · rw [if_neg hc]
          exact take_props (pysubClass_all (pystrip r)) hc (by omega)

theorem pfxClean_all (s : PyStr) :
    (pfxClean s).all isClassChar = true :=
  pyrstripDash_all (pysubClass_all s)

theorem normalize_pfx_tail (raw : Option PyStr) (dflt : PyStr) :
    ∃ c3 : PyStr, normalize_pfx raw dflt = c3.take 40 ∧
      c3.all isClassChar = true ∧ c3 ≠ [] := by
  refine ⟨if (if pfxClean (pfxBase raw dflt) = [] then pfxClean dflt
      else pfxClean (pfxBase raw dflt)) = [] then geoipName
    else
      (if pfxClean (pfxBase raw dflt) = [] then pfxClean dflt
      else pfxClean (pfxBase raw dflt)), rfl, ?_, ?_⟩
  · split_ifs
    all_goals first
      | decide
      | exact pfxClean_all _
  · split_ifs
    all_goals first
      | decide
      | assumption

theorem normalize_pfx_props (raw : Option PyStr) (dflt : PyStr) :
    (normalize_pfx raw dflt).all isClassChar = true ∧
      (normalize_pfx raw dflt).length ≤ 40 ∧
      normalize_pfx raw dflt ≠ [] := by
  rcases normalize_pfx_tail raw dflt with ⟨c3, he, hall, hne⟩
  rw [he]
  exact take_props hall hne (by omega)

/-- Claim C9: caller-supplied list names and prefixes are sanitized to
the class `[A-Za-z0-9_-]`, bounded to 63 (list name) / 40 (prefix)
characters, never empty, with the fixed default "geoip" when nothing
usable remains; trailing hyphens are stripped from prefixes
("acme--" gives "acme"), and in multi-list mode prefix "acme!" with
cc=ch yields the list name "acme_-ch". -/
theorem c9_naming :
    (∀ raw : Option PyStr,
      (normalize_list_name raw).all isClassChar = true ∧
        (normalize_list_name raw).length ≤ 63 ∧
        normalize_list_name raw ≠ []) ∧
    (∀ raw : Option PyStr,
      (normalize_pfx raw geoipDashName).all isClassChar = true ∧
        (normalize_pfx raw geoipDashName).length ≤ 40 ∧
        normalize_pfx raw geoipDashName ≠ []) ∧
    normalize_list_name none = geoipName ∧
    normalize_list_name (some [32, 32]) = geoipName ∧
    normalize_pfx none geoipDashName = geoipName ∧
    normalize_pfx (some [45, 45, 45]) geoipDashName = geoipName ∧
    normalize_pfx (some [97, 99, 109, 101, 45, 45]) geoipDashName =
      [97, 99, 109, 101] ∧
    normalize_pfx (some [97, 99, 109, 101, 33]) geoipDashName =
      [97, 99, 109, 101, 95] ∧
    geoip_rsc [([99, 104], [Net.mk 0 32])] [] [[99, 104]] []
        (some [97, 99, 109, 101, 33]) 0 [] =
      [Line.header,
       Line.swap [97, 99, 109, 101, 95, 45, 99, 104]
         [97, 99, 109, 101, 95, 45, 99, 104, 45, 111, 108, 100],
       Line.add [97, 99, 109, 101, 95, 45, 99, 104] (Net.mk 0 32) none] :=
  ⟨normalize_list_name_props,
   fun raw => normalize_pfx_props raw geoipDashName,
   by decide, by decide, by decide, by decide, by decide, by decide,
   by decide⟩

/-!  ## Claim C1: empty selection / empty resolution handling  -/

theorem addPairs_append (l₁ l₂ : List Line) :
    addPairs (l₁ ++ l₂) = addPairs l₁ ++ addPairs l₂ :=
  List.filterMap_append l₁ l₂ _

/-- A list consisting only of `add` lines has as many extracted pairs
as lines. -/
theorem addPairs_eq_nil_iff {lines : List Line}
    (h : ∀ l ∈ lines, ∃ ln n cm, l = Line.add ln n cm) :
    addPairs lines = [] ↔ lines = [] := by
  cases lines with
  | nil => simp [addPairs]
  | cons l rest =>
    rcases h l (List.mem_cons_self l rest) with ⟨ln, n, cm, rfl⟩
    simp [addPairs, List.filterMap_cons]

theorem customCountryAdds_all_adds (catalog : List (PyStr × List Net))
    (agg : Bool) (listName : PyStr) :
    ∀ (cl : List PyStr) (seen : List Net),
      ∀ l ∈ (customCountryAdds catalog agg listName cl seen).1,
        ∃ ln n cm, l = Line.add ln n cm := by
  intro cl
  induction cl with
  | nil =>
    intro seen l hl
    rw [customCountryAdds] at hl
    exact absurd hl (List.not_mem_nil l)
  | cons c rest ih =>
    intro seen l hl
    rw [customCountryAdds] at hl
    by_cases hn : lookupD catalog c [] = []
    · rw [if_pos hn] at hl
      exact ih seen l hl
    · rw [if_neg hn] at hl
      dsimp only at hl
      rcases List.mem_append.mp hl with hl | hl
      · rcases List.mem_map.mp hl with ⟨n, -, rfl⟩
        exact ⟨listName, n, some (pyupperStr c), rfl⟩
      · exact ih _ l hl

theorem customZoneAdds_all_adds (catalog : List (PyStr × List Net))
    (zoneDefs : List (PyStr × List PyStr)) (agg : Bool)
    (listName : PyStr) :
    ∀ (zl : List PyStr) (seen : List Net),
      ∀ l ∈ (customZoneAdds catalog zoneDefs agg listName zl seen).1,
        ∃ ln n cm, l = Line.add ln n cm := by
  intro zl
  induction zl with
  | nil =>
    intro seen l hl
    rw [customZoneAdds] at hl
    exact absurd hl (List.not_mem_nil l)
  | cons z rest ih =>
    intro seen l hl
    rw [customZoneAdds] at hl
    by_cases hn : zoneUnionNets catalog (lookupD zoneDefs z []) = []
    · rw [if_pos hn] at hl
      exact ih seen l hl
    · rw [if_neg hn] at hl
      dsimp only at hl
      rcases List.mem_append.mp hl with hl | hl
      · rcases List.mem_map.mp hl with ⟨n, -, rfl⟩
        exact ⟨listName, n, some z, rfl⟩
      · exact ih _ l hl

/-- Claim C1 (amended): `/custom.rsc` returns the single one-line error
directive exactly when the selection is empty after filtering or the
resolution yields zero add lines (`customAdds` empty), and otherwise a
script that starts with the header and contains at least one add line
(never a partially-built script).  `/geoip.rsc` returns the single
error directive exactly when the selection is empty after filtering;
any non-empty selection yields a script starting with the header —
including, when a selected zone has no catalog data behind it, a script
with a swap directive followed by zero add lines (the counterexample). -/
theorem c1_error_handling (catalog : List (PyStr × List Net))
    (zoneDefs : List (PyStr × List PyStr)) (cc zone : List PyStr)
    (listParam prefixParam : Option PyStr) (aggInt : Int)
    (customNets : List Net) :
    (custom_rsc catalog zoneDefs cc zone listParam aggInt customNets =
        [Line.errlog customErrMsg] ↔
      ((cc.foldl (addCountry catalog) [] = [] ∧
          zone.foldl (addZone zoneDefs) [] = [] ∧ customNets = []) ∨
        customAdds catalog zoneDefs (decide (aggInt ≠ 0))
          (normalize_list_name listParam)
          (cc.foldl (addCountry catalog) [])
          (zone.foldl (addZone zoneDefs) []) customNets = [])) ∧
    (custom_rsc catalog zoneDefs cc zone listParam aggInt customNets =
        [Line.errlog customErrMsg] ∨
      ((custom_rsc catalog zoneDefs cc zone listParam aggInt
          customNets).head? = some Line.header ∧
        addPairs (custom_rsc catalog zoneDefs cc zone listParam aggInt
          customNets) ≠ [])) ∧
    (geoip_rsc catalog zoneDefs cc zone prefixParam aggInt customNets =
        [Line.errlog geoipErrMsg] ↔
      ((geoipSelect catalog zoneDefs cc zone).1 = [] ∧
        (geoipSelect catalog zoneDefs cc zone).2 = [] ∧
        customNets = [])) ∧
    (geoip_rsc catalog zoneDefs cc zone prefixParam aggInt customNets =
        [Line.errlog geoipErrMsg] ∨
      (geoip_rsc catalog zoneDefs cc zone prefixParam aggInt
        customNets).head? = some Line.header) := by
  refine ⟨?_, ?_, ?_, ?_⟩
  · rw [custom_rsc]
    split_ifs with hsel hadds
    · exact iff_of_true rfl (Or.inl hsel)
    · exact iff_of_true rfl (Or.inr hadds)
    · refine iff_of_false ?_ ?_
      · intro hc
        injection hc with h1 h2
        exact Line.noConfusion h1
      · rintro (h | h)
        · exact hsel h
        · exact hadds h
  · rw [custom_rsc]
    split_ifs with hsel hadds
    · exact Or.inl rfl
    · exact Or.inl rfl
    · refine Or.inr ⟨rfl, ?_⟩
      rw [addPairs, List.filterMap_cons, List.filterMap_cons]
      dsimp only
      rw [← addPairs]
      intro hc
      apply hadds
      refine (addPairs_eq_nil_iff ?_).mp hc
      intro l hl
      rw [customAdds] at hl
      rcases List.mem_append.mp hl with hl | hl
      · rcases List.mem_append.mp hl with hl | hl
        · exact customCountryAdds_all_adds catalog _ _ _ _ l hl
        · exact customZoneAdds_all_adds catalog zoneDefs _ _ _ _ l hl
      · rcases List.mem_map.mp hl with ⟨n, -, rfl⟩
        exact ⟨normalize_list_name listParam, n, some customTag, rfl⟩
  · rw [geoip_rsc]
    split_ifs with hsel
    · exact iff_of_true rfl hsel
    · refine iff_of_false ?_ hsel
      intro hc
      injection hc with h1 h2
      exact Line.noConfusion h1
  · rw [geoip_rsc]
    split_ifs with hsel
    · exact Or.inl rfl
    · exact Or.inr rfl

/-- Claim C1, counterexample: a request selecting the known zone EU
whose only member fr has no catalog data makes `/geoip.rsc` emit a
partially-built script — the header and the zone's swap directive with
zero add lines — instead of the one-line error directive that the claim
requires for zero-add-line resolutions. -/
theorem c1_counterexample :
    geoip_rsc [] [([69, 85], [[102, 114]])] [] [[69, 85]] none 0 [] =
      [Line.header,
       Line.swap [103, 101, 111, 105, 112, 45, 69, 85]
         [103, 101, 111, 105, 112, 45, 69, 85, 45, 111, 108, 100]] ∧
    geoip_rsc [] [([69, 85], [[102, 114]])] [] [[69, 85]] none 0 [] ≠
      [Line.errlog geoipErrMsg] := by
  decide

/-!  ## One-step equations for the emission loops  -/

theorem emitNets_cons (n : Net) (rest seen : List Net) :
    emitNets (n :: rest) seen =
      if n ∈ seen then emitNets rest seen
      else
        ((n :: (emitNets rest (n :: seen)).1),
          (emitNets rest (n :: seen)).2) := rfl

theorem customCountryAdds_nil (catalog : List (PyStr × List Net))
    (agg : Bool) (listName : PyStr) (seen : List Net) :
    customCountryAdds catalog agg listName [] seen = ([], seen) := rfl

theorem customCountryAdds_cons (catalog : List (PyStr × List Net))
    (agg : Bool) (listName : PyStr) (c : PyStr) (rest : List PyStr)
    (seen : List Net) :
    customCountryAdds catalog agg listName (c :: rest) seen =
      if lookupD catalog c [] = [] then
        customCountryAdds catalog agg listName rest seen
      else
        ((emitNets (maybe_collapse_networks (lookupD catalog c []) agg)
            seen).1.map (fun n => Line.add listName n (some (pyupperStr c)))
          ++ (customCountryAdds catalog agg listName rest
            (emitNets (maybe_collapse_networks (lookupD catalog c []) agg)
              seen).2).1,
         (customCountryAdds catalog agg listName rest
           (emitNets (maybe_collapse_networks (lookupD catalog c []) agg)
             seen).2).2) := rfl

theorem customZoneAdds_nil (catalog : List (PyStr × List Net))
    (zoneDefs : List (PyStr × List PyStr)) (agg : Bool)
    (listName : PyStr) (seen : List Net) :
    customZoneAdds catalog zoneDefs agg listName [] seen = ([], seen) :=
  rfl

theorem customZoneAdds_cons (catalog : List (PyStr × List Net))
    (zoneDefs : List (PyStr × List PyStr)) (agg : Bool)
    (listName : PyStr) (z : PyStr) (rest : List PyStr)
    (seen : List Net) :
    customZoneAdds catalog zoneDefs agg listName (z :: rest) seen =
      if zoneUnionNets catalog (lookupD zoneDefs z []) = [] then
        customZoneAdds catalog zoneDefs agg listName rest seen
      else
        ((emitNets (maybe_collapse_networks
            (zoneUnionNets catalog (lookupD zoneDefs z [])) agg)
            seen).1.map (fun n => Line.add listName n (some z))
          ++ (customZoneAdds catalog zoneDefs agg listName rest
            (emitNets (maybe_collapse_networks
              (zoneUnionNets catalog (lookupD zoneDefs z [])) agg)
              seen).2).1,
         (customZoneAdds catalog zoneDefs agg listName rest
           (emitNets (maybe_collapse_networks
             (zoneUnionNets catalog (lookupD zoneDefs z [])) agg)
             seen).2).2) := rfl

theorem geoipCountrySegs_nil (catalog : List (PyStr × List Net))
    (agg : Bool) (pfx : PyStr) :
    geoipCountrySegs catalog agg pfx [] = [] := rfl

theorem geoipCountrySegs_cons (catalog : List (PyStr × List Net))
    (agg : Bool) (pfx : PyStr) (c : PyStr) (rest : List PyStr) :
    geoipCountrySegs catalog agg pfx (c :: rest) =
      if lookupD catalog c [] = [] then
        geoipCountrySegs catalog agg pfx rest
      else
        (Line.swap (pfx ++ 45 :: pylowerStr c)
            (list_old_name (pfx ++ 45 :: pylowerStr c)) ::
          (pydedupN (maybe_collapse_networks (lookupD catalog c [])
            agg)).map
            (fun n => Line.add (pfx ++ 45 :: pylowerStr c) n none)) ++
          geoipCountrySegs catalog agg pfx rest := rfl

theorem geoipZoneSegs_nil (catalog : List (PyStr × List Net))
    (zoneDefs : List (PyStr × List PyStr)) (agg : Bool) (pfx : PyStr)
    (selC : List PyStr) :
    geoipZoneSegs catalog zoneDefs agg pfx selC [] = [] := rfl

theorem geoipZoneSegs_cons (catalog : List (PyStr × List Net))
    (zoneDefs : List (PyStr × List PyStr)) (agg : Bool) (pfx : PyStr)
    (selC : List PyStr) (z : PyStr) (rest : List PyStr) :
    geoipZoneSegs catalog zoneDefs agg pfx selC (z :: rest) =
      (Line.swap (pfx ++ 45 :: z) (list_old_name (pfx ++ 45 :: z)) ::
        (pydedupN (maybe_collapse_networks
          (pydedupN ((lookupD zoneDefs z []).foldl
            (fun acc c =>
              if c ∈ selC then acc ++ lookupD catalog c [] else acc) []))
          agg)).map (fun n => Line.add (pfx ++ 45 :: z) n none)) ++
        geoipZoneSegs catalog zoneDefs agg pfx selC rest := rfl

/-!  ## Claim C8: zone expansion tolerance in single-list mode  -/

/-- Claim C8: with registry `{"EU": ["ch","fr"]}` and a catalog
containing only "ch", requesting `zone=EU` in single-list mode
succeeds (no error directive), emits at least one add line, and every
add line is tagged `comment="EU"` with a network covering only
addresses of the "ch" data — the member "fr" without catalog data is
silently tolerated. -/
theorem c8_zone_tolerance (chNets : List Net) (aggInt : Int)
    (h : chNets ≠ []) :
    custom_rsc [([99, 104], chNets)]
        [([69, 85], [[99, 104], [102, 114]])] [] [[69, 85]] none aggInt
        [] ≠ [Line.errlog customErrMsg] ∧
    (∀ ln n cm,
      Line.add ln n cm ∈ custom_rsc [([99, 104], chNets)]
        [([69, 85], [[99, 104], [102, 114]])] [] [[69, 85]] none aggInt
        [] →
      cm = some [69, 85] ∧ ∀ x, memNet x n → memNets x chNets) ∧
    (∃ ln n cm,
      Line.add ln n cm ∈ custom_rsc [([99, 104], chNets)]
        [([69, 85], [[99, 104], [102, 114]])] [] [[69, 85]] none aggInt
        []) := by
  have hpne : pydedupN chNets ≠ [] := pydedupN_ne_nil h
  have hmne : maybe_collapse_networks (pydedupN chNets)
      (decide (aggInt ≠ 0)) ≠ [] := maybe_collapse_ne_nil _ hpne
  have hdne : pydedupN (maybe_collapse_networks (pydedupN chNets)
      (decide (aggInt ≠ 0))) ≠ [] := pydedupN_ne_nil hmne
  have hselZ : List.foldl (addZone [([69, 85], [[99, 104], [102, 114]])])
      [] [[69, 85]] = [[69, 85]] := by decide
  have hz1 : zoneUnionNets [([99, 104], chNets)]
      (lookupD [([69, 85], [[99, 104], [102, 114]])] [69, 85] []) =
      pydedupN chNets := rfl
  have hadds : customAdds [([99, 104], chNets)]
      [([69, 85], [[99, 104], [102, 114]])] (decide (aggInt ≠ 0))
      (normalize_list_name none)
      (List.foldl (addCountry [([99, 104], chNets)]) [] [])
      (List.foldl (addZone [([69, 85], [[99, 104], [102, 114]])]) []
        [[69, 85]]) [] =
      (pydedupN (maybe_collapse_networks (pydedupN chNets)
        (decide (aggInt ≠ 0)))).map
        (fun n => Line.add (normalize_list_name none) n
          (some [69, 85])) := by
    rw [customAdds, cPhase3, cPhase2, cPhase1, hselZ]
    have hs0 : sortedStrs
        (List.foldl (addCountry [([99, 104], chNets)]) [] []) = [] := rfl
    rw [hs0, customCountryAdds_nil]
    have hs1 : sortedStrs [[69, 85]] = [[69, 85]] := rfl
    rw [hs1, customZoneAdds_cons, hz1, if_neg hpne, customZoneAdds_nil,
      if_pos rfl]
    simp only [List.nil_append, List.append_nil, List.map_nil]
    rfl
  have hsel : ¬(List.foldl (addCountry [([99, 104], chNets)]) [] [] = []
      ∧ List.foldl (addZone [([69, 85], [[99, 104], [102, 114]])]) []
        [[69, 85]] = [] ∧ ([] : List Net) = []) := by
    intro hc
    rw [hselZ] at hc
    exact absurd hc.2.1 (by decide)
  have haddsne : customAdds [([99, 104], chNets)]
      [([69, 85], [[99, 104], [102, 114]])] (decide (aggInt ≠ 0))
      (normalize_list_name none)
      (List.foldl (addCountry [([99, 104], chNets)]) [] [])
      (List.foldl (addZone [([69, 85], [[99, 104], [102, 114]])]) []
        [[69, 85]]) [] ≠ [] := by
    rw [hadds]
    intro hc
    rw [List.map_eq_nil_iff] at hc
    exact hdne hc
  have hout : custom_rsc [([99, 104], chNets)]
      [([69, 85], [[99, 104], [102, 114]])] [] [[69, 85]] none aggInt
      [] =
      Line.header ::
        Line.swap (normalize_list_name none)
          (list_old_name (normalize_list_name none)) ::
        customAdds [([99, 104], chNets)]
          [([69, 85], [[99, 104], [102, 114]])] (decide (aggInt ≠ 0))
          (normalize_list_name none)
          (List.foldl (addCountry [([99, 104], chNets)]) [] [])
          (List.foldl (addZone [([69, 85], [[99, 104], [102, 114]])])
            [] [[69, 85]]) [] := by
    rw [custom_rsc, if_neg hsel, if_neg haddsne]
  refine ⟨?_, ?_, ?_⟩
  · rw [hout]
    intro hc
    injection hc with h1 h2
    exact Line.noConfusion h1
  · intro ln n cm hmem
    rw [hout, hadds] at hmem
    rcases List.mem_cons.mp hmem with he | hmem
    · exact absurd he (fun hc => Line.noConfusion hc)
    rcases List.mem_cons.mp hmem with he | hmem
    · exact absurd he (fun hc => Line.noConfusion hc)
    rcases List.mem_map.mp hmem with ⟨n', hn', he⟩
    injection he with h1 h2 h3
    constructor
    · exact h3.symm
    · intro x hx
      have hm1 : memNets x (pydedupN (maybe_collapse_networks
          (pydedupN chNets) (decide (aggInt ≠ 0)))) :=
        ⟨n', hn', h2 ▸ hx⟩
      rw [memNets_pydedupN, memNets_maybe_collapse, memNets_pydedupN]
        at hm1
      exact hm1
  · cases hD : pydedupN (maybe_collapse_networks (pydedupN chNets)
        (decide (aggInt ≠ 0))) with
    | nil => exact absurd hD hdne
    | cons d t =>
      refine ⟨normalize_list_name none, d, some [69, 85], ?_⟩
      rw [hout, hadds, hD]
      exact List.mem_cons_of_mem _
        (List.mem_cons_of_mem _ (List.mem_cons_self _ _))

/-- Witness for C8: the "ch" catalog entry `[0.0.0.0/32]`. -/
theorem c8_zone_tolerance_witness :
    custom_rsc [([99, 104], [Net.mk 0 32])]
        [([69, 85], [[99, 104], [102, 114]])] [] [[69, 85]] none 0
        [] ≠ [Line.errlog customErrMsg] ∧
    (∀ ln n cm,
      Line.add ln n cm ∈ custom_rsc [([99, 104], [Net.mk 0 32])]
        [([69, 85], [[99, 104], [102, 114]])] [] [[69, 85]] none 0
        [] →
      cm = some [69, 85] ∧ ∀ x, memNet x n → memNets x [Net.mk 0 32]) ∧
    (∃ ln n cm,
      Line.add ln n cm ∈ custom_rsc [([99, 104], [Net.mk 0 32])]
        [([69, 85], [[99, 104], [102, 114]])] [] [[69, 85]] none 0
        []) :=
  c8_zone_tolerance [Net.mk 0 32] 0 (by decide)

/-!  ## Claim C10: zone selection implies per-country lists  -/

theorem foldl_addMember_mono (catalog : List (PyStr × List Net)) :
    ∀ (l : List PyStr) (acc : List PyStr) (c : PyStr),
      c ∈ acc → c ∈ l.foldl (addMember catalog) acc := by
  intro l
  induction l with
  | nil => intro acc c hc; exact hc
  | cons m rest ih =>
    intro acc c hc
    rw [List.foldl_cons]
    apply ih
    rw [addMember]
    split_ifs with hm
    · exact List.mem_append_left _ hc
    · exact hc

theorem foldl_addMember_mem (catalog : List (PyStr × List Net)) :
    ∀ (l : List PyStr) (acc : List PyStr) (c : PyStr),
      c ∈ l → hasKey catalog c = true →
      c ∈ l.foldl (addMember catalog) acc := by
  intro l
  induction l with
  | nil => intro acc c hc; exact absurd hc (List.not_mem_nil c)
  | cons m rest ih =>
    intro acc c hc hkey
    rw [List.foldl_cons]
    rcases List.mem_cons.mp hc with rfl | hc
    · apply foldl_addMember_mono
      rw [addMember]
      split_ifs with hm
      · exact List.mem_append_right _ (List.mem_cons_self c [])
      · rw [not_and_or] at hm
        rcases hm with hk | hmem
        · exact absurd hkey hk
        · rw [not_not] at hmem
          exact hmem
    · exact ih _ c hc hkey

/-- Selecting exactly one normalized known zone: the selection is the
zone's catalog-present members added to the `cc` countries, plus the
zone itself. -/
theorem geoipSelect_single (catalog : List (PyStr × List Net))
    (zoneDefs : List (PyStr × List PyStr)) (cc : List PyStr) (Z : PyStr)
    (hzk : pyupperStr (pystrip Z) = Z) (hZne : Z ≠ [])
    (hkey : hasKey zoneDefs Z = true) :
    geoipSelect catalog zoneDefs cc [Z] =
      ((lookupD zoneDefs Z []).foldl (addMember catalog)
        (cc.foldl (addCountry catalog) []), [Z]) := by
  rw [geoipSelect, List.foldl_cons, List.foldl_nil, geoipZoneStep, hzk,
    if_neg hZne, if_pos hkey]
  dsimp only
  rw [if_neg (List.not_mem_nil Z), List.nil_append]

theorem geoipCountrySegs_mem (catalog : List (PyStr × List Net))
    (agg : Bool) (pfx : PyStr) :
    ∀ (cl : List PyStr) (c : PyStr), c ∈ cl →
      lookupD catalog c [] ≠ [] →
      Line.swap (pfx ++ 45 :: pylowerStr c)
          (list_old_name (pfx ++ 45 :: pylowerStr c)) ∈
        geoipCountrySegs catalog agg pfx cl ∧
      ∃ n, Line.add (pfx ++ 45 :: pylowerStr c) n none ∈
        geoipCountrySegs catalog agg pfx cl := by
  intro cl
  induction cl with
  | nil => intro c hc; exact absurd hc (List.not_mem_nil c)
  | cons m rest ih =>
    intro c hc hlk
    rcases List.mem_cons.mp hc with rfl | hc
    · rw [geoipCountrySegs_cons, if_neg hlk]
      constructor
      · exact List.mem_append_left _ (List.mem_cons_self _ _)
      · have hne : pydedupN (maybe_collapse_networks
            (lookupD catalog c []) agg) ≠ [] :=
          pydedupN_ne_nil (maybe_collapse_ne_nil agg hlk)
        cases hD : pydedupN (maybe_collapse_networks
            (lookupD catalog c []) agg) with
        | nil => exact absurd hD hne
        | cons d t =>
          refine ⟨d, List.mem_append_left _ (List.mem_cons_of_mem _ ?_)⟩
          exact List.mem_map_of_mem _ (List.mem_cons_self d t)
    · rcases ih c hc hlk with ⟨h1, h2⟩
      rw [geoipCountrySegs_cons]
      split_ifs with hm
      · exact ⟨h1, h2⟩
      · rcases h2 with ⟨n, hn⟩
        exact ⟨List.mem_append_right _ h1,
          n, List.mem_append_right _ hn⟩

theorem geoipZoneSegs_swap_mem (catalog : List (PyStr × List Net))
    (zoneDefs : List (PyStr × List PyStr)) (agg : Bool) (pfx : PyStr)
    (selC : List PyStr) :
    ∀ (zl : List PyStr) (z : PyStr), z ∈ zl →
      Line.swap (pfx ++ 45 :: z) (list_old_name (pfx ++ 45 :: z)) ∈
        geoipZoneSegs catalog zoneDefs agg pfx selC zl := by
  intro zl
  induction zl with
  | nil => intro z hz; exact absurd hz (List.not_mem_nil z)
  | cons m rest ih =>
    intro z hz
    rw [geoipZoneSegs_cons]
    rcases List.mem_cons.mp hz with rfl | hz
    · exact List.mem_append_left _ (List.mem_cons_self _ _)
    · exact List.mem_append_right _ (ih z hz)

/-- Claim C10: in multi-list mode, selecting a zone implicitly selects
every member country of that zone that is present in the catalog — the
script contains, besides the zone's own swap directive, a standalone
per-country list `prefix + "-" + code` with its own swap directive and
at least one add line, for each such member. -/
theorem c10_zone_implies_country_lists
    (catalog : List (PyStr × List Net))
    (zoneDefs : List (PyStr × List PyStr)) (cc : List PyStr)
    (Z c : PyStr) (members : List PyStr) (nets : List Net)
    (prefixParam : Option PyStr) (aggInt : Int) (customNets : List Net)
    (hzk : pyupperStr (pystrip Z) = Z) (hZne : Z ≠ [])
    (hz : alookup zoneDefs Z = some members) (hc : c ∈ members)
    (hcn : alookup catalog c = some nets) (hnets : nets ≠ []) :
    Line.swap (normalize_pfx prefixParam geoipDashName ++
        45 :: pylowerStr c)
        (list_old_name (normalize_pfx prefixParam geoipDashName ++
          45 :: pylowerStr c)) ∈
      geoip_rsc catalog zoneDefs cc [Z] prefixParam aggInt customNets ∧
    (∃ n, Line.add (normalize_pfx prefixParam geoipDashName ++
        45 :: pylowerStr c) n none ∈
      geoip_rsc catalog zoneDefs cc [Z] prefixParam aggInt customNets) ∧
    Line.swap (normalize_pfx prefixParam geoipDashName ++ 45 :: Z)
        (list_old_name (normalize_pfx prefixParam geoipDashName ++
          45 :: Z)) ∈
      geoip_rsc catalog zoneDefs cc [Z] prefixParam aggInt customNets := by
  have hkey : hasKey zoneDefs Z = true := by
    rw [hasKey, hz]
    rfl
  have hckey : hasKey catalog c = true := by
    rw [hasKey, hcn]
    rfl
  have hmembers : lookupD zoneDefs Z [] = members := by
    rw [lookupD, hz]
    rfl
  have hlkc : lookupD catalog c [] = nets := by
    rw [lookupD, hcn]
    rfl
  have hst := geoipSelect_single catalog zoneDefs cc Z hzk hZne hkey
  have hcsel : c ∈ (geoipSelect catalog zoneDefs cc [Z]).1 := by
    rw [hst, hmembers]
    exact foldl_addMember_mem catalog members _ c hc hckey
  have hsel : ¬((geoipSelect catalog zoneDefs cc [Z]).1 = [] ∧
      (geoipSelect catalog zoneDefs cc [Z]).2 = [] ∧
      customNets = []) := by
    rintro ⟨h1, -, -⟩
    rw [h1] at hcsel
    exact List.not_mem_nil c hcsel
  have hout : geoip_rsc catalog zoneDefs cc [Z] prefixParam aggInt
      customNets =
      Line.header ::
        (geoipCountrySegs catalog (decide (aggInt ≠ 0))
            (normalize_pfx prefixParam geoipDashName)
            (sortedStrs (geoipSelect catalog zoneDefs cc [Z]).1) ++
          geoipZoneSegs catalog zoneDefs (decide (aggInt ≠ 0))
            (normalize_pfx prefixParam geoipDashName)
            (geoipSelect catalog zoneDefs cc [Z]).1
            (sortedStrs (geoipSelect catalog zoneDefs cc [Z]).2) ++
          geoipCustomSeg (decide (aggInt ≠ 0))
            (normalize_pfx prefixParam geoipDashName) customNets) := by
    rw [geoip_rsc, if_neg hsel]
  have hcsel' : c ∈ sortedStrs (geoipSelect catalog zoneDefs cc [Z]).1 :=
    (List.perm_insertionSort strLe _).mem_iff.mpr hcsel
  have hlkne : lookupD catalog c [] ≠ [] := by
    rw [hlkc]
    exact hnets
  rcases geoipCountrySegs_mem catalog (decide (aggInt ≠ 0))
      (normalize_pfx prefixParam geoipDashName) _ c hcsel' hlkne with
    ⟨hswap, n, hadd⟩
  have hzsel : Z ∈ sortedStrs (geoipSelect catalog zoneDefs cc [Z]).2 := by
    rw [hst]
    exact (List.perm_insertionSort strLe _).mem_iff.mpr
      (List.mem_cons_self Z [])
  have hzswap := geoipZoneSegs_swap_mem catalog zoneDefs
    (decide (aggInt ≠ 0)) (normalize_pfx prefixParam geoipDashName)
    (geoipSelect catalog zoneDefs cc [Z]).1 _ Z hzsel
  refine ⟨?_, ⟨n, ?_⟩, ?_⟩
  · rw [hout]
    exact List.mem_cons_of_mem _
      (List.mem_append_left _ (List.mem_append_left _ hswap))
  · rw [hout]
    exact List.mem_cons_of_mem _
      (List.mem_append_left _ (List.mem_append_left _ hadd))
  · rw [hout]
    exact List.mem_cons_of_mem _
      (List.mem_append_left _ (List.mem_append_right _ hzswap))

/-- Witness for C10: registry `{"EU": ["ch","fr"]}`, catalog `{"ch":
[0.0.0.0/32]}`, request `zone=EU`. -/
theorem c10_zone_implies_country_lists_witness :
    Line.swap (normalize_pfx none geoipDashName ++
        45 :: pylowerStr [99, 104])
        (list_old_name (normalize_pfx none geoipDashName ++
          45 :: pylowerStr [99, 104])) ∈
      geoip_rsc [([99, 104], [Net.mk 0 32])]
        [([69, 85], [[99, 104], [102, 114]])] [] [[69, 85]] none 0 [] ∧
    (∃ n, Line.add (normalize_pfx none geoipDashName ++
        45 :: pylowerStr [99, 104]) n none ∈
      geoip_rsc [([99, 104], [Net.mk 0 32])]
        [([69, 85], [[99, 104], [102, 114]])] [] [[69, 85]] none 0 []) ∧
    Line.swap (normalize_pfx none geoipDashName ++ 45 :: [69, 85])
        (list_old_name (normalize_pfx none geoipDashName ++
          45 :: [69, 85])) ∈
      geoip_rsc [([99, 104], [Net.mk 0 32])]
        [([69, 85], [[99, 104], [102, 114]])] [] [[69, 85]] none 0 [] :=
  c10_zone_implies_country_lists [([99, 104], [Net.mk 0 32])]
    [([69, 85], [[99, 104], [102, 114]])] [] [69, 85] [99, 104]
    [[99, 104], [102, 114]] [Net.mk 0 32] none 0 []
    (by decide) (by decide) (by decide) (by decide) (by decide)
    (by decide)

/-!  ## Claim C5: per-list deduplication  -/

/-- Two add-line pairs never place the same address twice in the same
address-list. -/
def distinctPerList (p q : PyStr × Net) : Prop := p.1 = q.1 → p.2 ≠ q.2

/-- Shape of a catalog country code: two lowercase ASCII letters (the
invariant established by `load_country_nets_from_disk`, which only
accepts `XX.zone` stems with `len(code) == 2 and code.isalpha()` after
lower-casing). -/
def isCC (c : PyStr) : Prop := c.length = 2 ∧ ∀ ch ∈ c, 97 ≤ ch ∧ ch ≤ 122

instance (c : PyStr) : Decidable (isCC c) :=
  inferInstanceAs (Decidable (_ ∧ _))

/-- A string with no lowercase ASCII letter (the shape of upper-cased
zone codes). -/
def noLower (z : PyStr) : Prop := ∀ ch ∈ z, ¬(97 ≤ ch ∧ ch ≤ 122)

theorem pylowerStr_fix {c : PyStr} (h : ∀ ch ∈ c, 97 ≤ ch ∧ ch ≤ 122) :
    pylowerStr c = c := by
  induction c with
  | nil => rfl
  | cons ch t ih =>
    have hch := h ch (List.mem_cons_self ch t)
    rw [pylowerStr, List.map_cons]
    rw [pylowerStr] at ih
    rw [ih (fun x hx => h x (List.mem_cons_of_mem ch hx))]
    rw [pylowerChar, if_neg (by omega)]

theorem pyupperStr_noLower (s : PyStr) : noLower (pyupperStr s) := by
  intro ch hch
  rcases List.mem_map.mp hch with ⟨c0, -, rfl⟩
  rw [pyupperChar]
  split_ifs with h
  · omega
  · omega

theorem segName_inj {pfx a b : PyStr} (h : pfx ++ 45 :: a = pfx ++ 45 :: b) :
    a = b := by
  have h1 := List.append_cancel_left h
  injection h1

theorem cc_ne_noLower {c z : PyStr} (hc : isCC c) (hz : noLower z) :
    c ≠ z := by
  intro he
  rcases hc with ⟨hlen, hch⟩
  cases c with
  | nil => exact absurd hlen (by decide)
  | cons ch t =>
    have h1 := hch ch (List.mem_cons_self ch t)
    have h2 := hz ch (he ▸ List.mem_cons_self ch t)
    exact h2 h1

theorem cc_ne_custom {c : PyStr} (hc : isCC c) : c ≠ customName := by
  intro he
  rw [he] at hc
  exact absurd hc.1 (by decide)

theorem noLower_ne_custom {z : PyStr} (hz : noLower z) :
    z ≠ customName := by
  intro he
  rw [he] at hz
  exact hz 99 (by decide) (by decide)

theorem netsOfLines_append (l₁ l₂ : List Line) :
    netsOfLines (l₁ ++ l₂) = netsOfLines l₁ ++ netsOfLines l₂ :=
  List.filterMap_append l₁ l₂ _

theorem netsOfLines_map_add (ln : PyStr) (cm : Option PyStr)
    (l : List Net) :
    netsOfLines (l.map (fun n => Line.add ln n cm)) = l := by
  induction l with
  | nil => rfl
  | cons n t ih =>
    rw [List.map_cons, netsOfLines, List.filterMap_cons]
    dsimp only
    rw [← netsOfLines, ih]

theorem addPairs_map_add (ln : PyStr) (cm : Option PyStr)
    (l : List Net) :
    addPairs (l.map (fun n => Line.add ln n cm)) =
      l.map (fun n => (ln, n)) := by
  induction l with
  | nil => rfl
  | cons n t ih =>
    rw [List.map_cons, addPairs, List.filterMap_cons]
    dsimp only
    rw [← addPairs, ih, List.map_cons]

theorem addPairs_of_shape {ln0 : PyStr} :
    ∀ {lines : List Line},
      (∀ l ∈ lines, ∃ n cm, l = Line.add ln0 n cm) →
      addPairs lines = (netsOfLines lines).map (fun n => (ln0, n)) := by
  intro lines
  induction lines with
  | nil => intro _; rfl
  | cons l t ih =>
    intro h
    rcases h l (List.mem_cons_self l t) with ⟨n, cm, rfl⟩
    rw [addPairs, netsOfLines, List.filterMap_cons, List.filterMap_cons]
    dsimp only
    rw [← addPairs, ← netsOfLines, List.map_cons,
      ih (fun x hx => h x (List.mem_cons_of_mem _ hx))]

/-- Pairwise distinctness of a single, deduplicated list segment. -/
theorem pairs_of_segment (ln : PyStr) {D : List Net} (hD : D.Nodup) :
    List.Pairwise distinctPerList (D.map (fun n => (ln, n))) := by
  rw [List.pairwise_map]
  exact hD.imp (fun hne => fun _ => hne)

/-- Invariants of the `/custom.rsc` country phase: the emitted
addresses are duplicate-free, disjoint from the incoming seen-set, and
the outgoing seen-set is the union. -/
theorem customCountryAdds_spec (catalog : List (PyStr × List Net))
    (agg : Bool) (listName : PyStr) :
    ∀ (cl : List PyStr) (seen : List Net),
      (netsOfLines (customCountryAdds catalog agg listName cl
        seen).1).Nodup ∧
      (∀ n ∈ netsOfLines (customCountryAdds catalog agg listName cl
        seen).1, n ∉ seen) ∧
      (∀ n, n ∈ (customCountryAdds catalog agg listName cl seen).2 ↔
        n ∈ seen ∨ n ∈ netsOfLines (customCountryAdds catalog agg
          listName cl seen).1) := by
  intro cl
  induction cl with
  | nil =>
    intro seen
    rw [customCountryAdds_nil]
    refine ⟨List.nodup_nil, fun n hn => absurd hn (List.not_mem_nil n),
      fun n => ?_⟩
    simp [netsOfLines]
  | cons c rest ih =>
    intro seen
    rw [customCountryAdds_cons]
    split_ifs with hm
    · exact ih seen
    · rcases ih (emitNets (maybe_collapse_networks
          (lookupD catalog c []) agg) seen).2 with ⟨ihn, ihs, ihi⟩
      rw [netsOfLines_append, netsOfLines_map_add]
      have hemn := emitNets_nodup (maybe_collapse_networks
        (lookupD catalog c []) agg) seen
      have hseen := emitNets_seen (maybe_collapse_networks
        (lookupD catalog c []) agg) seen
      refine ⟨?_, ?_, ?_⟩
      · refine List.Nodup.append hemn ihn ?_
        intro n hn1 hn2
        exact ihs n hn2 ((hseen n).mpr (Or.inr hn1))
      · intro n hn
        rcases List.mem_append.mp hn with hn | hn
        · exact (emitNets_mem _ _ n hn).2
        · intro hc
          exact ihs n hn ((hseen n).mpr (Or.inl hc))
      · intro n
        rw [ihi n, hseen n, List.mem_append]
        tauto

/-- Invariants of the `/custom.rsc` zone phase (same shape as the
country phase). -/
theorem customZoneAdds_spec (catalog : List (PyStr × List Net))
    (zoneDefs : List (PyStr × List PyStr)) (agg : Bool)
    (listName : PyStr) :
    ∀ (zl : List PyStr) (seen : List Net),
      (netsOfLines (customZoneAdds catalog zoneDefs agg listName zl
        seen).1).Nodup ∧
      (∀ n ∈ netsOfLines (customZoneAdds catalog zoneDefs agg listName
        zl seen).1, n ∉ seen) ∧
      (∀ n, n ∈ (customZoneAdds catalog zoneDefs agg listName zl
        seen).2 ↔
        n ∈ seen ∨ n ∈ netsOfLines (customZoneAdds catalog zoneDefs agg
          listName zl seen).1) := by
  intro zl
  induction zl with
  | nil =>
    intro seen
    rw [customZoneAdds_nil]
    refine ⟨List.nodup_nil, fun n hn => absurd hn (List.not_mem_nil n),
      fun n => ?_⟩
    simp [netsOfLines]
  | cons z rest ih =>
    intro seen
    rw [customZoneAdds_cons]
    split_ifs with hm
    · exact ih seen
    · rcases ih (emitNets (maybe_collapse_networks
          (zoneUnionNets catalog (lookupD zoneDefs z [])) agg)
          seen).2 with ⟨ihn, ihs, ihi⟩
      rw [netsOfLines_append, netsOfLines_map_add]
      have hemn := emitNets_nodup (maybe_collapse_networks
        (zoneUnionNets catalog (lookupD zoneDefs z [])) agg) seen
      have hseen := emitNets_seen (maybe_collapse_networks
        (zoneUnionNets catalog (lookupD zoneDefs z [])) agg) seen
      refine ⟨?_, ?_, ?_⟩
      · refine List.Nodup.append hemn ihn ?_
        intro n hn1 hn2
        exact ihs n hn2 ((hseen n).mpr (Or.inr hn1))
      · intro n hn
        rcases List.mem_append.mp hn with hn | hn
        · exact (emitNets_mem _ _ n hn).2
        · intro hc
          exact ihs n hn ((hseen n).mpr (Or.inl hc))
      · intro n
        rw [ihi n, hseen n, List.mem_append]
        tauto

theorem cPhase1_eq (catalog : List (PyStr × List Net)) (agg : Bool)
    (listName : PyStr) (selC : List PyStr) :
    cPhase1 catalog agg listName selC =
      customCountryAdds catalog agg listName (sortedStrs selC) [] := rfl

theorem cPhase2_eq (catalog : List (PyStr × List Net))
    (zoneDefs : List (PyStr × List PyStr)) (agg : Bool)
    (listName : PyStr) (selC selZ : List PyStr) :
    cPhase2 catalog zoneDefs agg listName selC selZ =
      customZoneAdds catalog zoneDefs agg listName (sortedStrs selZ)
        (cPhase1 catalog agg listName selC).2 := rfl

theorem customCountryAdds_shape (catalog : List (PyStr × List Net))
    (agg : Bool) (listName : PyStr) :
    ∀ (cl : List PyStr) (seen : List Net),
      ∀ l ∈ (customCountryAdds catalog agg listName cl seen).1,
        ∃ n cm, l = Line.add listName n cm := by
  intro cl
  induction cl with
  | nil =>
    intro seen l hl
    rw [customCountryAdds_nil] at hl
    exact absurd hl (List.not_mem_nil l)
  | cons c rest ih =>
    intro seen l hl
    rw [customCountryAdds_cons] at hl
    split_ifs at hl with hm
    · exact ih seen l hl
    · rcases List.mem_append.mp hl with hl | hl
      · rcases List.mem_map.mp hl with ⟨n, -, rfl⟩
        exact ⟨n, some (pyupperStr c), rfl⟩
      · exact ih _ l hl

theorem customZoneAdds_shape (catalog : List (PyStr × List Net))
    (zoneDefs : List (PyStr × List PyStr)) (agg : Bool)
    (listName : PyStr) :
    ∀ (zl : List PyStr) (seen : List Net),
      ∀ l ∈ (customZoneAdds catalog zoneDefs agg listName zl seen).1,
        ∃ n cm, l = Line.add listName n cm := by
  intro zl
  induction zl with
  | nil =>
    intro seen l hl
    rw [customZoneAdds_nil] at hl
    exact absurd hl (List.not_mem_nil l)
  | cons z rest ih =>
    intro seen l hl
    rw [customZoneAdds_cons] at hl
    split_ifs at hl with hm
    · exact ih seen l hl
    · rcases List.mem_append.mp hl with hl | hl
      · rcases List.mem_map.mp hl with ⟨n, -, rfl⟩
        exact ⟨n, some z, rfl⟩
      · exact ih _ l hl

theorem customAdds_shape (catalog : List (PyStr × List Net))
    (zoneDefs : List (PyStr × List PyStr)) (agg : Bool)
    (listName : PyStr) (selC selZ : List PyStr)
    (customNets : List Net) :
    ∀ l ∈ customAdds catalog zoneDefs agg listName selC selZ customNets,
      ∃ n cm, l = Line.add listName n cm := by
  intro l hl
  rw [customAdds] at hl
  rcases List.mem_append.mp hl with hl | hl
  · rcases List.mem_append.mp hl with hl | hl
    · exact customCountryAdds_shape catalog agg listName _ _ l hl
    · exact customZoneAdds_shape catalog zoneDefs agg listName _ _ l hl
  · rcases List.mem_map.mp hl with ⟨n, -, rfl⟩
    exact ⟨n, some customTag, rfl⟩

theorem customAdds_nets_nodup (catalog : List (PyStr × List Net))
    (zoneDefs : List (PyStr × List PyStr)) (agg : Bool)
    (listName : PyStr) (selC selZ : List PyStr)
    (customNets : List Net) :
    (netsOfLines (customAdds catalog zoneDefs agg listName selC selZ
      customNets)).Nodup := by
  obtain ⟨h1n, h1s, h1i⟩ :=
    customCountryAdds_spec catalog agg listName (sortedStrs selC) []
  obtain ⟨h2n, h2s, h2i⟩ :=
    customZoneAdds_spec catalog zoneDefs agg listName (sortedStrs selZ)
      (cPhase1 catalog agg listName selC).2
  rw [customAdds, netsOfLines_append, netsOfLines_append,
    netsOfLines_map_add]
  rw [cPhase1_eq] at *
  rw [cPhase2_eq] at *
  have hmem1 : ∀ n, n ∈ netsOfLines (customCountryAdds catalog agg
      listName (sortedStrs selC) []).1 →
      n ∈ (customCountryAdds catalog agg listName (sortedStrs selC)
        []).2 :=
    fun n hn => (h1i n).mpr (Or.inr hn)
  have h12 : ((netsOfLines (customCountryAdds catalog agg listName
      (sortedStrs selC) []).1) ++
      (netsOfLines (customZoneAdds catalog zoneDefs agg listName
        (sortedStrs selZ) (customCountryAdds catalog agg listName
          (sortedStrs selC) []).2).1)).Nodup := by
    refine List.Nodup.append h1n h2n ?_
    intro n hn1 hn2
    exact h2s n hn2 (hmem1 n hn1)
  refine List.Nodup.append h12 ?_ ?_
  · rw [cPhase3]
    split_ifs with hcn
    · exact List.nodup_nil
    · exact emitNets_nodup _ _
  · intro n hn1 hn3
    have hs2 : n ∈ (customZoneAdds catalog zoneDefs agg listName
        (sortedStrs selZ) (customCountryAdds catalog agg listName
          (sortedStrs selC) []).2).2 := by
      rcases List.mem_append.mp hn1 with hn | hn
      · exact (h2i n).mpr (Or.inl (hmem1 n hn))
      · exact (h2i n).mpr (Or.inr hn)
    rw [cPhase3] at hn3
    split_ifs at hn3 with hcn
    · exact absurd hn3 (List.not_mem_nil n)
    · rw [cPhase2_eq] at hn3
      exact (emitNets_mem _ _ n hn3).2 hs2

/-- Single-list mode never emits the same address twice in its (one)
address-list: the pairs of the generated script are pairwise distinct
per list name. -/
theorem custom_rsc_pairwise (catalog : List (PyStr × List Net))
    (zoneDefs : List (PyStr × List PyStr)) (cc zone : List PyStr)
    (listParam : Option PyStr) (aggInt : Int) (customNets : List Net) :
    List.Pairwise distinctPerList
      (addPairs (custom_rsc catalog zoneDefs cc zone listParam aggInt
        customNets)) := by
  rw [custom_rsc]
  split_ifs with h1 h2
  · exact List.Pairwise.nil
  · exact List.Pairwise.nil
  · have hshape := customAdds_shape catalog zoneDefs
      (decide (aggInt ≠ 0)) (normalize_list_name listParam)
      (cc.foldl (addCountry catalog) [])
      (zone.foldl (addZone zoneDefs) []) customNets
    have heq : addPairs (Line.header ::
        Line.swap (normalize_list_name listParam)
          (list_old_name (normalize_list_name listParam)) ::
        customAdds catalog zoneDefs (decide (aggInt ≠ 0))
          (normalize_list_name listParam)
          (cc.foldl (addCountry catalog) [])
          (zone.foldl (addZone zoneDefs) []) customNets) =
        addPairs (customAdds catalog zoneDefs (decide (aggInt ≠ 0))
          (normalize_list_name listParam)
          (cc.foldl (addCountry catalog) [])
          (zone.foldl (addZone zoneDefs) []) customNets) := rfl
    rw [heq, addPairs_of_shape hshape]
    exact pairs_of_segment _ (customAdds_nets_nodup catalog zoneDefs
      (decide (aggInt ≠ 0)) (normalize_list_name listParam)
      (cc.foldl (addCountry catalog) [])
      (zone.foldl (addZone zoneDefs) []) customNets)

theorem hasKey_exists {α : Type} {m : List (PyStr × α)} {k : PyStr}
    (h : hasKey m k = true) : ∃ p ∈ m, p.1 = k := by
  induction m with
  | nil => simp [hasKey, alookup] at h
  | cons p rest ih =>
    rw [hasKey, alookup] at h
    by_cases hp : p.1 = k
    · exact ⟨p, List.mem_cons_self p rest, hp⟩
    · rw [if_neg hp] at h
      rcases ih h with ⟨q, hq, hqk⟩
      exact ⟨q, List.mem_cons_of_mem p hq, hqk⟩

theorem foldl_addCountry_keys (catalog : List (PyStr × List Net)) :
    ∀ (cc : List PyStr) (acc : List PyStr),
      (∀ c ∈ acc, hasKey catalog c = true) →
      ∀ c ∈ cc.foldl (addCountry catalog) acc, hasKey catalog c = true := by
  intro cc
  induction cc with
  | nil => intro acc hacc c hc; exact hacc c hc
  | cons craw rest ih =>
    intro acc hacc c hc
    rw [List.foldl_cons] at hc
    refine ih _ ?_ c hc
    intro c' hc'
    rw [addCountry] at hc'
    split_ifs at hc' with hcond
    · rcases List.mem_append.mp hc' with h | h
      · exact hacc c' h
      · rcases List.mem_cons.mp h with rfl | h
        · exact hcond.2.1
        · exact absurd h (List.not_mem_nil c')
    · exact hacc c' hc'

theorem nodup_append_singleton {l : List PyStr} {z : PyStr}
    (hl : l.Nodup) (hz : z ∉ l) : (l ++ [z]).Nodup := by
  refine List.Nodup.append hl (List.nodup_singleton z) ?_
  intro a ha hz'
  rcases List.mem_cons.mp hz' with rfl | hz'
  · exact hz ha
  · exact absurd hz' (List.not_mem_nil a)

theorem foldl_addCountry_nodup (catalog : List (PyStr × List Net)) :
    ∀ (cc : List PyStr) (acc : List PyStr), acc.Nodup →
      (cc.foldl (addCountry catalog) acc).Nodup := by
  intro cc
  induction cc with
  | nil => intro acc hacc; exact hacc
  | cons craw rest ih =>
    intro acc hacc
    rw [List.foldl_cons]
    refine ih _ ?_
    rw [addCountry]
    split_ifs with hcond
    · exact nodup_append_singleton hacc hcond.2.2
    · exact hacc

theorem foldl_addMember_keys (catalog : List (PyStr × List Net)) :
    ∀ (members : List PyStr) (acc : List PyStr),
      (∀ c ∈ acc, hasKey catalog c = true) →
      ∀ c ∈ members.foldl (addMember catalog) acc,
        hasKey catalog c = true := by
  intro members
  induction members with
  | nil => intro acc hacc c hc; exact hacc c hc
  | cons m rest ih =>
    intro acc hacc c hc
    rw [List.foldl_cons] at hc
    refine ih _ ?_ c hc
    intro c' hc'
    rw [addMember] at hc'
    split_ifs at hc' with hcond
    · rcases List.mem_append.mp hc' with h | h
      · exact hacc c' h
      · rcases List.mem_cons.mp h with rfl | h
        · exact hcond.1
        · exact absurd h (List.not_mem_nil c')
    · exact hacc c' hc'

theorem foldl_addMember_nodup (catalog : List (PyStr × List Net)) :
    ∀ (members : List PyStr) (acc : List PyStr), acc.Nodup →
      (members.foldl (addMember catalog) acc).Nodup := by
  intro members
  induction members with
  | nil => intro acc hacc; exact hacc
  | cons m rest ih =>
    intro acc hacc
    rw [List.foldl_cons]
    refine ih _ ?_
    rw [addMember]
    split_ifs with hcond
    · exact nodup_append_singleton hacc hcond.2
    · exact hacc

/-- The selection invariants of `/geoip.rsc`: every selected country is
a catalog key, both selections are duplicate-free, and every selected
zone is an upper-cased token (no lowercase ASCII letters). -/
theorem geoipSelect_inv (catalog : List (PyStr × List Net))
    (zoneDefs : List (PyStr × List PyStr)) (cc zone : List PyStr) :
    (∀ c ∈ (geoipSelect catalog zoneDefs cc zone).1,
      hasKey catalog c = true) ∧
    (geoipSelect catalog zoneDefs cc zone).1.Nodup ∧
    (∀ z ∈ (geoipSelect catalog zoneDefs cc zone).2, noLower z) ∧
    (geoipSelect catalog zoneDefs cc zone).2.Nodup := by
  rw [geoipSelect]
  have hbase1 : ∀ c ∈ cc.foldl (addCountry catalog) [],
      hasKey catalog c = true :=
    foldl_addCountry_keys catalog cc []
      (fun c hc => absurd hc (List.not_mem_nil c))
  have hbase2 : (cc.foldl (addCountry catalog) []).Nodup :=
    foldl_addCountry_nodup catalog cc [] List.nodup_nil
  have main : ∀ (zl : List PyStr) (st : List PyStr × List PyStr),
      (∀ c ∈ st.1, hasKey catalog c = true) → st.1.Nodup →
      (∀ z ∈ st.2, noLower z) → st.2.Nodup →
      (∀ c ∈ (zl.foldl (geoipZoneStep catalog zoneDefs) st).1,
        hasKey catalog c = true) ∧
      (zl.foldl (geoipZoneStep catalog zoneDefs) st).1.Nodup ∧
      (∀ z ∈ (zl.foldl (geoipZoneStep catalog zoneDefs) st).2,
        noLower z) ∧
      (zl.foldl (geoipZoneStep catalog zoneDefs) st).2.Nodup := by
    intro zl
    induction zl with
    | nil => intro st h1 h2 h3 h4; exact ⟨h1, h2, h3, h4⟩
    | cons zraw rest ih =>
      intro st h1 h2 h3 h4
      rw [List.foldl_cons]
      refine ih _ ?_ ?_ ?_ ?_
      · rw [geoipZoneStep]
        split_ifs with hb hk hm
        · exact h1
        · exact foldl_addMember_keys catalog _ _ h1
        · exact foldl_addMember_keys catalog _ _ h1
        · exact h1
      · rw [geoipZoneStep]
        split_ifs with hb hk hm
        · exact h2
        · exact foldl_addMember_nodup catalog _ _ h2
        · exact foldl_addMember_nodup catalog _ _ h2
        · exact h2
      · rw [geoipZoneStep]
        split_ifs with hb hk hm
        · exact h3
        · exact h3
        · intro z hz
          dsimp only at hz
          rcases List.mem_append.mp hz with hz | hz
          · exact h3 z hz
          · rcases List.mem_cons.mp hz with rfl | hz
            · exact pyupperStr_noLower _
            · exact absurd hz (List.not_mem_nil z)
        · exact h3
      · rw [geoipZoneStep]
        split_ifs with hb hk hm
        · exact h4
        · exact h4
        · exact nodup_append_singleton h4 hm
        · exact h4
  exact main zone _ hbase1 hbase2
    (fun z hz => absurd hz (List.not_mem_nil z)) List.nodup_nil

theorem geoipCountrySegs_pairs (catalog : List (PyStr × List Net))
    (agg : Bool) (pfx : PyStr) :
    ∀ (cl : List PyStr), (∀ c ∈ cl, isCC c) → cl.Nodup →
      List.Pairwise distinctPerList
        (addPairs (geoipCountrySegs catalog agg pfx cl)) ∧
      ∀ p ∈ addPairs (geoipCountrySegs catalog agg pfx cl),
        ∃ c ∈ cl, p.1 = pfx ++ 45 :: c := by
  intro cl
  induction cl with
  | nil =>
    intro _ _
    exact ⟨List.Pairwise.nil,
      fun p hp => absurd hp (List.not_mem_nil p)⟩
  | cons c rest ih =>
    intro hcc hnd
    have hccc : isCC c := hcc c (List.mem_cons_self c rest)
    have hfix : pylowerStr c = c := pylowerStr_fix hccc.2
    rcases List.nodup_cons.mp hnd with ⟨hcnot, hndr⟩
    have IH := ih (fun x hx => hcc x (List.mem_cons_of_mem c hx)) hndr
    rw [geoipCountrySegs_cons]
    split_ifs with hm
    · refine ⟨IH.1, fun p hp => ?_⟩
      rcases IH.2 p hp with ⟨c', hc', he⟩
      exact ⟨c', List.mem_cons_of_mem c hc', he⟩
    · have h0 : addPairs ((Line.swap (pfx ++ 45 :: pylowerStr c)
          (list_old_name (pfx ++ 45 :: pylowerStr c)) ::
          (pydedupN (maybe_collapse_networks (lookupD catalog c [])
            agg)).map
            (fun n => Line.add (pfx ++ 45 :: pylowerStr c) n none)) ++
          geoipCountrySegs catalog agg pfx rest) =
          (pydedupN (maybe_collapse_networks (lookupD catalog c [])
            agg)).map (fun n => (pfx ++ 45 :: c, n)) ++
          addPairs (geoipCountrySegs catalog agg pfx rest) := by
        rw [addPairs_append, hfix]
        have h1 : addPairs (Line.swap (pfx ++ 45 :: c)
            (list_old_name (pfx ++ 45 :: c)) ::
            (pydedupN (maybe_collapse_networks (lookupD catalog c [])
              agg)).map
              (fun n => Line.add (pfx ++ 45 :: c) n none)) =
            addPairs ((pydedupN (maybe_collapse_networks
              (lookupD catalog c []) agg)).map
              (fun n => Line.add (pfx ++ 45 :: c) n none)) := rfl
        rw [h1, addPairs_map_add]
      rw [h0]
      constructor
      · refine List.pairwise_append.mpr
          ⟨pairs_of_segment _ (pydedupN_nodup _), IH.1, ?_⟩
        intro a ha b hb
        rcases List.mem_map.mp ha with ⟨n, -, rfl⟩
        rcases IH.2 b hb with ⟨c', hc', hb1⟩
        intro heq
        dsimp only at heq
        rw [hb1] at heq
        have : c = c' := segName_inj heq
        exact absurd (this ▸ hc') hcnot
      · intro p hp
        rcases List.mem_append.mp hp with hp | hp
        · rcases List.mem_map.mp hp with ⟨n, -, rfl⟩
          exact ⟨c, List.mem_cons_self c rest, rfl⟩
        · rcases IH.2 p hp with ⟨c', hc', he⟩
          exact ⟨c', List.mem_cons_of_mem c hc', he⟩

theorem geoipZoneSegs_pairs (catalog : List (PyStr × List Net))
    (zoneDefs : List (PyStr × List PyStr)) (agg : Bool) (pfx : PyStr)
    (selC : List PyStr) :
    ∀ (zl : List PyStr), zl.Nodup →
      List.Pairwise distinctPerList
        (addPairs (geoipZoneSegs catalog zoneDefs agg pfx selC zl)) ∧
      ∀ p ∈ addPairs (geoipZoneSegs catalog zoneDefs agg pfx selC zl),
        ∃ z ∈ zl, p.1 = pfx ++ 45 :: z := by
  intro zl
  induction zl with
  | nil =>
    intro _
    exact ⟨List.Pairwise.nil,
      fun p hp => absurd hp (List.not_mem_nil p)⟩
  | cons z rest ih =>
    intro hnd
    rcases List.nodup_cons.mp hnd with ⟨hznot, hndr⟩
    have IH := ih hndr
    rw [geoipZoneSegs_cons]
    have h0 : addPairs ((Line.swap (pfx ++ 45 :: z)
        (list_old_name (pfx ++ 45 :: z)) ::
        (pydedupN (maybe_collapse_networks
          (pydedupN ((lookupD zoneDefs z []).foldl
            (fun acc c =>
              if c ∈ selC then acc ++ lookupD catalog c [] else acc) []))
          agg)).map (fun n => Line.add (pfx ++ 45 :: z) n none)) ++
        geoipZoneSegs catalog zoneDefs agg pfx selC rest) =
        (pydedupN (maybe_collapse_networks
          (pydedupN ((lookupD zoneDefs z []).foldl
            (fun acc c =>
              if c ∈ selC then acc ++ lookupD catalog c [] else acc) []))
          agg)).map (fun n => (pfx ++ 45 :: z, n)) ++
        addPairs (geoipZoneSegs catalog zoneDefs agg pfx selC rest) := by
      rw [addPairs_append]
      have h1 : addPairs (Line.swap (pfx ++ 45 :: z)
          (list_old_name (pfx ++ 45 :: z)) ::
          (pydedupN (maybe_collapse_networks
            (pydedupN ((lookupD zoneDefs z []).foldl
              (fun acc c =>
                if c ∈ selC then acc ++ lookupD catalog c [] else acc)
              [])) agg)).map
            (fun n => Line.add (pfx ++ 45 :: z) n none)) =
          addPairs ((pydedupN (maybe_collapse_networks
            (pydedupN ((lookupD zoneDefs z []).foldl
              (fun acc c =>
                if c ∈ selC then acc ++ lookupD catalog c [] else acc)
              [])) agg)).map
            (fun n => Line.add (pfx ++ 45 :: z) n none)) := rfl
      rw [h1, addPairs_map_add]
    rw [h0]
    constructor
    · refine List.pairwise_append.mpr
        ⟨pairs_of_segment _ (pydedupN_nodup _), IH.1, ?_⟩
      intro a ha b hb
      rcases List.mem_map.mp ha with ⟨n, -, rfl⟩
      rcases IH.2 b hb with ⟨z', hz', hb1⟩
      intro heq
      dsimp only at heq
      rw [hb1] at heq
      have : z = z' := segName_inj heq
      exact absurd (this ▸ hz') hznot
    · intro p hp
      rcases List.mem_append.mp hp with hp | hp
      · rcases List.mem_map.mp hp with ⟨n, -, rfl⟩
        exact ⟨z, List.mem_cons_self z rest, rfl⟩
      · rcases IH.2 p hp with ⟨z', hz', he⟩
        exact ⟨z', List.mem_cons_of_mem z hz', he⟩

theorem geoipCustomSeg_pairs (agg : Bool) (pfx : PyStr)
    (customNets : List Net) :
    List.Pairwise distinctPerList
      (addPairs (geoipCustomSeg agg pfx customNets)) ∧
    ∀ p ∈ addPairs (geoipCustomSeg agg pfx customNets),
      p.1 = pfx ++ 45 :: customName := by
  rw [geoipCustomSeg]
  split_ifs with hc
  · exact ⟨List.Pairwise.nil, fun p hp => absurd hp (List.not_mem_nil p)⟩
  · have h1 : addPairs (Line.swap (pfx ++ 45 :: customName)
        (list_old_name (pfx ++ 45 :: customName)) ::
        (pydedupN (maybe_collapse_networks customNets agg)).map
          (fun n => Line.add (pfx ++ 45 :: customName) n none)) =
        (pydedupN (maybe_collapse_networks customNets agg)).map
          (fun n => (pfx ++ 45 :: customName, n)) := by
      have h0 : addPairs (Line.swap (pfx ++ 45 :: customName)
          (list_old_name (pfx ++ 45 :: customName)) ::
          (pydedupN (maybe_collapse_networks customNets agg)).map
            (fun n => Line.add (pfx ++ 45 :: customName) n none)) =
          addPairs ((pydedupN (maybe_collapse_networks customNets
            agg)).map
            (fun n => Line.add (pfx ++ 45 :: customName) n none)) := rfl
      rw [h0, addPairs_map_add]
    rw [h1]
    constructor
    · exact pairs_of_segment _ (pydedupN_nodup _)
    · intro p hp
      rcases List.mem_map.mp hp with ⟨n, -, rfl⟩
      rfl

theorem geoip_rsc_pairwise (catalog : List (PyStr × List Net))
    (zoneDefs : List (PyStr × List PyStr)) (cc zone : List PyStr)
    (prefixParam : Option PyStr) (aggInt : Int) (customNets : List Net)
    (hcc : ∀ p ∈ catalog, isCC p.1) :
    List.Pairwise distinctPerList
      (addPairs (geoip_rsc catalog zoneDefs cc zone prefixParam aggInt
        customNets)) := by
  rw [geoip_rsc]
  split_ifs with hsel
  · exact List.Pairwise.nil
  · obtain ⟨hk, hnd1, hnl, hnd2⟩ := geoipSelect_inv catalog zoneDefs cc
      zone
    have hCs : ∀ c ∈ sortedStrs (geoipSelect catalog zoneDefs cc
        zone).1, isCC c := by
      intro c hc
      have hc' := (List.perm_insertionSort strLe _).mem_iff.mp hc
      rcases hasKey_exists (hk c hc') with ⟨p, hp, hpk⟩
      exact hpk ▸ hcc p hp
    have hCnd : (sortedStrs (geoipSelect catalog zoneDefs cc
        zone).1).Nodup :=
      ((List.perm_insertionSort strLe _).nodup_iff).mpr hnd1
    have hZs : ∀ z ∈ sortedStrs (geoipSelect catalog zoneDefs cc
        zone).2, noLower z :=
      fun z hz => hnl z ((List.perm_insertionSort strLe _).mem_iff.mp hz)
    have hZnd : (sortedStrs (geoipSelect catalog zoneDefs cc
        zone).2).Nodup :=
      ((List.perm_insertionSort strLe _).nodup_iff).mpr hnd2
    obtain ⟨hA, hAs⟩ := geoipCountrySegs_pairs catalog
      (decide (aggInt ≠ 0)) (normalize_pfx prefixParam geoipDashName)
      (sortedStrs (geoipSelect catalog zoneDefs cc zone).1) hCs hCnd
    obtain ⟨hB, hBs⟩ := geoipZoneSegs_pairs catalog zoneDefs
      (decide (aggInt ≠ 0)) (normalize_pfx prefixParam geoipDashName)
      (geoipSelect catalog zoneDefs cc zone).1
      (sortedStrs (geoipSelect catalog zoneDefs cc zone).2) hZnd
    obtain ⟨hC, hCsh⟩ := geoipCustomSeg_pairs (decide (aggInt ≠ 0))
      (normalize_pfx prefixParam geoipDashName) customNets
    have heq : addPairs (Line.header ::
        (geoipCountrySegs catalog (decide (aggInt ≠ 0))
            (normalize_pfx prefixParam geoipDashName)
            (sortedStrs (geoipSelect catalog zoneDefs cc zone).1) ++
          geoipZoneSegs catalog zoneDefs (decide (aggInt ≠ 0))
            (normalize_pfx prefixParam geoipDashName)
            (geoipSelect catalog zoneDefs cc zone).1
            (sortedStrs (geoipSelect catalog zoneDefs cc zone).2) ++
          geoipCustomSeg (decide (aggInt ≠ 0))
            (normalize_pfx prefixParam geoipDashName) customNets)) =
        addPairs (geoipCountrySegs catalog (decide (aggInt ≠ 0))
          (normalize_pfx prefixParam geoipDashName)
          (sortedStrs (geoipSelect catalog zoneDefs cc zone).1)) ++
        addPairs (geoipZoneSegs catalog zoneDefs (decide (aggInt ≠ 0))
          (normalize_pfx prefixParam geoipDashName)
          (geoipSelect catalog zoneDefs cc zone).1
          (sortedStrs (geoipSelect catalog zoneDefs cc zone).2)) ++
        addPairs (geoipCustomSeg (decide (aggInt ≠ 0))
          (normalize_pfx prefixParam geoipDashName) customNets) := by
      rw [show addPairs (Line.header ::
          (geoipCountrySegs catalog (decide (aggInt ≠ 0))
              (normalize_pfx prefixParam geoipDashName)
              (sortedStrs (geoipSelect catalog zoneDefs cc zone).1) ++
            geoipZoneSegs catalog zoneDefs (decide (aggInt ≠ 0))
              (normalize_pfx prefixParam geoipDashName)
              (geoipSelect catalog zoneDefs cc zone).1
              (sortedStrs (geoipSelect catalog zoneDefs cc zone).2) ++
            geoipCustomSeg (decide (aggInt ≠ 0))
              (normalize_pfx prefixParam geoipDashName) customNets)) =
          addPairs
          (geoipCountrySegs catalog (decide (aggInt ≠ 0))
              (normalize_pfx prefixParam geoipDashName)
              (sortedStrs (geoipSelect catalog zoneDefs cc zone).1) ++
            geoipZoneSegs catalog zoneDefs (decide (aggInt ≠ 0))
              (normalize_pfx prefixParam geoipDashName)
              (geoipSelect catalog zoneDefs cc zone).1
              (sortedStrs (geoipSelect catalog zoneDefs cc zone).2) ++
            geoipCustomSeg (decide (aggInt ≠ 0))
              (normalize_pfx prefixParam geoipDashName) customNets)
        from rfl, addPairs_append, addPairs_append]
    rw [heq]
    refine List.pairwise_append.mpr
      ⟨List.pairwise_append.mpr ⟨hA, hB, ?_⟩, hC, ?_⟩
    · intro a ha b hb heqn
      rcases hAs a ha with ⟨c, hc, ha1⟩
      rcases hBs b hb with ⟨z, hz, hb1⟩
      have hnm := (ha1.symm.trans heqn).trans hb1
      exact absurd (segName_inj hnm)
        (cc_ne_noLower (hCs c hc) (hZs z hz))
    · intro a ha b hb heqn
      have hb1 := hCsh b hb
      rcases List.mem_append.mp ha with ha | ha
      · rcases hAs a ha with ⟨c, hc, ha1⟩
        have hnm := (ha1.symm.trans heqn).trans hb1
        exact absurd (segName_inj hnm) (cc_ne_custom (hCs c hc))
      · rcases hBs a ha with ⟨z, hz, ha1⟩
        have hnm := (ha1.symm.trans heqn).trans hb1
        exact absurd (segName_inj hnm) (noLower_ne_custom (hZs z hz))

/-- Claim C5: in both modes, the same canonical CIDR never appears in
two add lines of the same address-list — in single-list mode because of
the global per-script seen-set (first writer wins), in multi-list mode
because each list is deduplicated with its own seen-set and all list
names are distinct.  The hypothesis is the catalog-key invariant
established by `load_country_nets_from_disk` (two lowercase letters). -/
theorem c5_per_list_dedup (catalog : List (PyStr × List Net))
    (zoneDefs : List (PyStr × List PyStr)) (cc zone : List PyStr)
    (listParam prefixParam : Option PyStr) (aggInt : Int)
    (customNets : List Net) (hcc : ∀ p ∈ catalog, isCC p.1) :
    List.Pairwise distinctPerList
      (addPairs (custom_rsc catalog zoneDefs cc zone listParam aggInt
        customNets)) ∧
    List.Pairwise distinctPerList
      (addPairs (geoip_rsc catalog zoneDefs cc zone prefixParam aggInt
        customNets)) :=
  ⟨custom_rsc_pairwise catalog zoneDefs cc zone listParam aggInt
     customNets,
   geoip_rsc_pairwise catalog zoneDefs cc zone prefixParam aggInt
     customNets hcc⟩

/-- Witness for C5: a concrete request selecting the country ch, the
zone EU (member ch, duplicating ch's networks) and a custom network
that also duplicates a catalog network. -/
theorem c5_per_list_dedup_witness :
    List.Pairwise distinctPerList
      (addPairs (custom_rsc [([99, 104], [Net.mk 0 32, Net.mk 0 32])]
        [([69, 85], [[99, 104]])] [[99, 104]] [[69, 85]] none 0
        [Net.mk 0 32])) ∧
    List.Pairwise distinctPerList
      (addPairs (geoip_rsc [([99, 104], [Net.mk 0 32, Net.mk 0 32])]
        [([69, 85], [[99, 104]])] [[99, 104]] [[69, 85]] none 0
        [Net.mk 0 32])) :=
  c5_per_list_dedup [([99, 104], [Net.mk 0 32, Net.mk 0 32])]
    [([69, 85], [[99, 104]])] [[99, 104]] [[69, 85]] none none 0
    [Net.mk 0 32] (by decide)
